import Mathlib

/-!
Verification development for the multi-objective scheduler plugin.

Shallow embedding of:
* the `SchedulingHint` custom-resource data model (apis/descheduler/v1alpha1),
* the scorer plugin (`pkg/multiobjective/multiobjective.go`):
  `New`, `getSchedulingHint`, `selectBestNode`, `Score`, `tryConsumeSlot`,
* the power objective (`pkg/multiobjective/multiobjective_problem.go`),
* the solution encodings (`pkg/multiobjective/framework/framework.go`),
* the NSGA-II engine (`pkg/multiobjective/algorithms`, framework-based variant).

Modelling conventions: Go `int`/`int64` become `Int`; Go `float64` becomes `ℚ`
where the code only does field arithmetic and comparisons, and `ℝ` where it
uses `math.Exp`; Go maps become association lists iterated in list order (one
fixed linearization of Go's unspecified map iteration order), with absent keys
reading as the zero value, as in Go; `nil` maps and `nil` pointers become
`Option`; calls into the API server become explicit oracle parameters
(`Except` results for fetches, `Bool` for optimistic-concurrency updates);
`log.Fatalf` becomes an `Option.none` result.
-/

set_option autoImplicit false

/-! ## Association-list helpers (Go map reads/writes) -/

/-- Go map read `m[k]` with default `d` for a missing key. -/
def lookupD {β : Type} : List (String × β) → String → β → β
  | [], _, d => d
  | (k, v) :: rest, key, d => if k = key then v else lookupD rest key d

/-- Go map write `m[k] = v`: replace the first binding of `k`, or append one. -/
def setKey {β : Type} : List (String × β) → String → β → List (String × β)
  | [], key, v => [(key, v)]
  | (k, w) :: rest, key, v =>
    if k = key then (key, v) :: rest else (k, w) :: setKey rest key v

theorem lookupD_setKey_same {β : Type} (l : List (String × β)) (k : String) (v d : β) :
    lookupD (setKey l k v) k d = v := by
  induction l with
  | nil => simp [setKey, lookupD]
  | cons p rest ih =>
    by_cases h : p.1 = k <;> simp [setKey, lookupD, h, ih]

theorem lookupD_setKey_other {β : Type} (l : List (String × β)) (k k' : String) (v d : β)
    (hne : k' ≠ k) : lookupD (setKey l k v) k' d = lookupD l k' d := by
  have hkk : k ≠ k' := fun h => hne h.symm
  induction l with
  | nil => simp [setKey, lookupD, hkk]
  | cons p rest ih =>
    by_cases h : p.1 = k
    · simp [setKey, lookupD, h, hkk]
    · by_cases h' : p.1 = k' <;> simp [setKey, lookupD, h, h', ih, hne]

/-! ## Data model: `SchedulingHint` (apis/descheduler/v1alpha1/types.go)

Timestamps (`metav1.Time` pointers) are modelled as `Option Int`
(seconds-since-epoch); only their presence and ordering could matter.
`status` is omitted: the scorer never reads it. -/

structure ReplicaSetDistribution where
  ns : String
  replicaSetName : String
  nodeDistribution : List (String × Int)
  deriving DecidableEq

structure ReplicaSetMovement where
  replicaSetName : String
  ns : String
  targetDistribution : List (String × Int)
  availableSlots : List (String × Int)
  /-- `ScheduledCount map[string]int` with `omitempty`: a possibly-`nil` map. -/
  scheduledCount : Option (List (String × Int))
  reason : String
  deriving DecidableEq

structure ObjectiveValues where
  cost : ℚ
  disruption : ℚ
  balance : ℚ
  deriving DecidableEq

structure OptimizationSolution where
  rank : Int
  weightedScore : ℚ
  objectives : ObjectiveValues
  movementCount : Int
  replicaSetMovements : List ReplicaSetMovement
  deriving DecidableEq

structure SchedulingHintSpec where
  clusterFingerprint : String
  clusterNodes : List String
  originalReplicaSetDistribution : List ReplicaSetDistribution
  solutions : List OptimizationSolution
  expirationTime : Option Int
  generatedAt : Option Int
  deschedulerVersion : String
  deriving DecidableEq

structure SchedulingHint where
  /-- `metav1.ObjectMeta.Name`. -/
  name : String
  spec : SchedulingHintSpec
  deriving DecidableEq

/-! ## Scorer plugin (pkg/multiobjective/multiobjective.go) -/

def MinNodeScore : Int := 0

def MaxNodeScore : Int := 100

/-- `MultiObjectiveState`, the cycle-local state written by PreScore. -/
structure MultiObjectiveState where
  targetNode : String
  hasHint : Bool
  hint : Option SchedulingHint
  rsKey : String
  deriving DecidableEq

/-- What `CycleState.Read` can hand back: the plugin's state or a value of
some other type (the `data.(*MultiObjectiveState)` type assertion fails). -/
inductive StateData where
  | mo (st : MultiObjectiveState)
  | other
  deriving DecidableEq

/-- `getSchedulingHint` (multiobjective.go:232-285).

The fetch of the `SchedulingHint` by name is the oracle argument `fetched`.
On a fetch error the Go code returns `nil, nil, nil` (no error) so that
PreScore falls back to default scoring; with zero solutions it returns an
error; otherwise it returns the hint and `&hint.Spec.Solutions[0]`.

`now` is the current time. The Go function reads the clock only to log the
hint's age: no comparison with `spec.expirationTime` is ever made, so the
result does not depend on `now`. -/
def getSchedulingHint (now : Int) (fetched : Except String SchedulingHint) :
    Except String (Option (SchedulingHint × OptimizationSolution)) :=
  match fetched with
  | .error _ => .ok none
  | .ok hint =>
    match hint.spec.solutions with
    | [] => .error "no solutions in scheduling hint"
    | top :: _ => .ok (some (hint, top))

/-- The filtered node data `selectBestNode` reads: name and label keys. -/
structure NodeMeta where
  name : String
  labels : List String
  deriving DecidableEq

def controlPlaneLabel : String := "node-role.kubernetes.io/control-plane"

/-- `fmt.Sprintf("%s/%s", movement.Namespace, movement.ReplicaSetName)`. -/
def movementKey (m : ReplicaSetMovement) : String := m.ns ++ "/" ++ m.replicaSetName

/-- The inner loop of `selectBestNode` over the movement's target
distribution, carrying `(bestNode, maxTarget)`, initially `("", 0)`. -/
def bestOfMovement (m : ReplicaSetMovement) (avail : List String) : String × Int :=
  m.targetDistribution.foldl
    (fun acc p =>
      if avail.contains p.1 && decide (0 < lookupD m.availableSlots p.1 0) &&
          decide (acc.2 < p.2)
      then (p.1, p.2) else acc)
    ("", 0)

/-- The movement scan of `selectBestNode`: first movement whose key matches. -/
def selectGo : List ReplicaSetMovement → String → List String → String
  | [], _, _ => ""
  | m :: rest, rsKey, avail =>
    if movementKey m = rsKey then (bestOfMovement m avail).1 else selectGo rest rsKey avail

/-- `selectBestNode` (multiobjective.go:186-229): build the set of candidate
node names excluding control-plane nodes, then pick, from the matching
movement, the available-slot node with the largest target count. -/
def selectBestNode (solution : OptimizationSolution) (rsKey : String)
    (filteredNodes : List NodeMeta) : String :=
  let availableNodes :=
    (filteredNodes.filter (fun nd => !nd.labels.contains controlPlaneLabel)).map NodeMeta.name
  selectGo solution.replicaSetMovements rsKey availableNodes

/-- First movement in the list whose key equals `rsKey` (the search both
`selectBestNode` and `tryConsumeSlot` perform). -/
def findMov : List ReplicaSetMovement → String → Option ReplicaSetMovement
  | [], _ => none
  | m :: rest, rsKey => if movementKey m = rsKey then some m else findMov rest rsKey

/-- The movement `tryConsumeSlot` would update in hint `h` for group `rsKey`:
the first key-matching movement of the top solution. -/
def movementOf (h : SchedulingHint) (rsKey : String) : Option ReplicaSetMovement :=
  match h.spec.solutions with
  | [] => none
  | top :: _ => findMov top.replicaSetMovements rsKey

/-- The slot-consumption mutation (multiobjective.go:444-450):
`AvailableSlots[nodeName]--`, create `ScheduledCount` if `nil`,
`ScheduledCount[nodeName]++`. -/
def consumeOnMovement (m : ReplicaSetMovement) (nodeName : String) : ReplicaSetMovement :=
  { m with
    availableSlots := setKey m.availableSlots nodeName (lookupD m.availableSlots nodeName 0 - 1),
    scheduledCount :=
      some (setKey (m.scheduledCount.getD []) nodeName
        (lookupD (m.scheduledCount.getD []) nodeName 0 + 1)) }

/-- The movement loop of one `tryConsumeSlot` attempt: find the first
key-matching movement; if its node has a positive slot count, consume a slot
(`true`), otherwise leave everything unchanged (`false`). -/
def consumeInMovements : List ReplicaSetMovement → String → String →
    List ReplicaSetMovement × Bool
  | [], _, _ => ([], false)
  | m :: rest, rsKey, nodeName =>
    if movementKey m = rsKey then
      if 0 < lookupD m.availableSlots nodeName 0 then
        ((consumeOnMovement m nodeName) :: rest, true)
      else (m :: rest, false)
    else
      let r := consumeInMovements rest rsKey nodeName
      (m :: r.1, r.2)

/-- One read-modify attempt of `tryConsumeSlot` on a freshly fetched hint:
the hint that would be written back, and whether a slot was consumed.
With no solutions, no matching movement, or no free slot the hint is
untouched and the attempt reports `false`. -/
def tryConsumeSlotStep (h : SchedulingHint) (rsKey nodeName : String) :
    SchedulingHint × Bool :=
  match h.spec.solutions with
  | [] => (h, false)
  | top :: rest =>
    let r := consumeInMovements top.replicaSetMovements rsKey nodeName
    if r.2 then
      ({ h with spec := { h.spec with
          solutions := { top with replicaSetMovements := r.1 } :: rest } }, true)
    else (h, false)

def maxRetries : Nat := 3

/-- The retry loop of `tryConsumeSlot` (multiobjective.go:419-488).
`fetches attempt` is the store's answer to the fresh `Get` of attempt number
`attempt`; `updates attempt` is whether the optimistic `Update` of that
attempt is accepted. Returns the overall result and the number of the
attempt on which the loop stopped. `fuel` is `maxRetries` at entry and
counts the iterations still allowed; the loop always stops at
`attempt = maxRetries`, so the out-of-fuel base case is unreachable. -/
def consumeLoop (fetches : Nat → Except String SchedulingHint) (updates : Nat → Bool)
    (rsKey nodeName : String) : Nat → Nat → Bool × Nat
  | attempt, 0 => (false, attempt - 1)
  | attempt, fuel + 1 =>
    match fetches attempt with
    | .error _ =>
      if attempt = maxRetries then (false, attempt)
      else consumeLoop fetches updates rsKey nodeName (attempt + 1) fuel
    | .ok fresh =>
      if (tryConsumeSlotStep fresh rsKey nodeName).2 then
        if updates attempt then (true, attempt)
        else if attempt = maxRetries then (false, attempt)
        else consumeLoop fetches updates rsKey nodeName (attempt + 1) fuel
      else (false, attempt)

/-- `tryConsumeSlot` (multiobjective.go:404-491). `configOk` abstracts the
REST-config/clientset construction that precedes the loop; when it fails the
function returns `false` without any attempt. -/
def tryConsumeSlot (configOk : Bool) (fetches : Nat → Except String SchedulingHint)
    (updates : Nat → Bool) (rsKey nodeName : String) : Bool × Nat :=
  if configOk then consumeLoop fetches updates rsKey nodeName 1 maxRetries
  else (false, 0)

/-- `Score` (multiobjective.go:135-178). `read` is the result of
`state.Read(stateKey)` combined with the type assertion; the store oracles
are passed through to `tryConsumeSlot`. -/
def Score (read : Except String StateData) (nodeName : String) (configOk : Bool)
    (fetches : Nat → Except String SchedulingHint) (updates : Nat → Bool) : Int :=
  match read with
  | .error _ => MinNodeScore
  | .ok .other => MinNodeScore
  | .ok (.mo cycleState) =>
    if !cycleState.hasHint then MinNodeScore
    else if nodeName = cycleState.targetNode then
      if (tryConsumeSlot configOk fetches updates cycleState.rsKey nodeName).1
      then MaxNodeScore else MinNodeScore
    else MinNodeScore

/-- The plugin constructor `New` (multiobjective.go:78-85). Its `args
runtime.Object` parameter is modelled as the configured objective-weight
vector it could carry; the Go function never reads `args` and
unconditionally returns the plugin with a `nil` error. -/
def New (args : List ℚ) : Except String Unit :=
  .ok ()

/-! ## Real-valued solutions (pkg/multiobjective/framework/framework.go) -/

structure RealBounds where
  l : ℚ
  h : ℚ
  deriving DecidableEq

structure RealSolution where
  /-- the `Variables` field (`variables` is a Lean keyword-like identifier). -/
  vars : List ℚ
  bounds : List RealBounds
  deriving DecidableEq

/-- `RealSolution.Clone` (framework.go:110-115): allocates
`make([]float64, len(sol.Variables))` — a zero-filled vector that is never
copied into — and shares `Bounds`. -/
def RealSolution.clone (sol : RealSolution) : RealSolution :=
  { vars := List.replicate sol.vars.length 0
    bounds := sol.bounds }

/-! ## Power objective (pkg/multiobjective/multiobjective_problem.go)

`calculatePowerConsumption` uses `math.Exp`, so this part of the model lives
over `ℝ`. A node is modelled by the fields the function reads; a pod by its
total milli-CPU request (`getPodMilliCPURequest(pod)` summed over
containers). Annotation values are modelled post-parse: a key mapped to a
value stands for a present, parseable annotation. -/

def NodeAnnotationPowerIdle : String := "multiobjective.x-k8s.io/power-idle"

def NodeAnnotationPowerBusy : String := "multiobjective.x-k8s.io/power-busy"

structure NodeInfoR where
  annotations : List (String × ℝ)
  requestedMilliCPU : Int
  allocatableMilliCPU : Int

structure PodR where
  /-- `getPodMilliCPURequest(pod)`: the summed container CPU requests. -/
  milliCPU : Int

/-- `getFloatFromAnnotation` (multiobjective_problem.go:167-174): the parsed
annotation value, or `0.0` when absent (or unparseable). -/
def getAnnotFloat (node : NodeInfoR) (key : String) : ℝ :=
  lookupD node.annotations key 0

/-- `calculatePowerConsumption` (multiobjective_problem.go:85-110). -/
noncomputable def calculatePowerConsumption (pod : PodR) (node : NodeInfoR) : ℝ :=
  let pIdle := getAnnotFloat node NodeAnnotationPowerIdle
  let pBusy := getAnnotFloat node NodeAnnotationPowerBusy
  let currentMilliCPU : ℝ := (node.requestedMilliCPU : ℝ)
  let allocatableMilliCPU : ℝ := (node.allocatableMilliCPU : ℝ)
  let podMilliCPU : ℝ := (pod.milliCPU : ℝ)
  let currentUtil := currentMilliCPU / allocatableMilliCPU
  let newUtil := (currentMilliCPU + podMilliCPU) / allocatableMilliCPU
  let utilizationThreshold : ℝ := 0.2
  let penalty : ℝ :=
    if currentUtil < utilizationThreshold then
      pIdle * Real.exp (-5.0 * currentUtil / utilizationThreshold)
    else 0
  pIdle + (pBusy - pIdle) * newUtil + penalty

/-! ## Concrete fixtures -/

def mov0 : ReplicaSetMovement :=
  { replicaSetName := "web"
    ns := "default"
    targetDistribution := [("node-a", 2), ("node-b", 1)]
    availableSlots := [("node-a", 2), ("node-b", 1)]
    scheduledCount := none
    reason := "consolidation" }

def sol0 : OptimizationSolution :=
  { rank := 1
    weightedScore := 0
    objectives := ⟨0, 0, 0⟩
    movementCount := 3
    replicaSetMovements := [mov0] }

/-- A hint whose `expirationTime` lies in the past relative to `now = 0`. -/
def expiredHint : SchedulingHint :=
  { name := "multiobjective-hints-0123456789abcdef"
    spec :=
      { clusterFingerprint := "0123456789abcdef"
        clusterNodes := ["node-a", "node-b"]
        originalReplicaSetDistribution := []
        solutions := [sol0]
        expirationTime := some (-1000)
        generatedAt := some (-2000)
        deschedulerVersion := "v1" } }

/-- Claim C1 (code bug): `getSchedulingHint` never consults
`spec.expirationTime`. At `now = 0` a hint that expired at time `-1000` is
still fetched, and its top solution is returned, so the cycle proceeds with
the expired plan instead of behaving as if no plan existed. -/
theorem getSchedulingHint_uses_expired_plan :
    expiredHint.spec.expirationTime = some (-1000) ∧ (-1000 : Int) < 0 ∧
    getSchedulingHint 0 (.ok expiredHint) = .ok (some (expiredHint, sol0)) :=
  ⟨rfl, by decide, rfl⟩

def realSol0 : RealSolution :=
  { vars := [3/2, 5/2]
    bounds := [⟨0, 3⟩, ⟨0, 3⟩] }

/-- Claim C2 (code bug): `RealSolution.Clone` returns a solution whose
variable vector is zero-filled, not a copy of the original's variables
(bounds are shared as specified). On the concrete solution with variables
`[3/2, 5/2]` the clone's variables are `[0, 0]`. -/
theorem realSolution_clone_zeroes_variables :
    realSol0.clone.vars = [0, 0] ∧
    realSol0.clone.vars ≠ realSol0.vars ∧
    realSol0.clone.bounds = realSol0.bounds :=
  ⟨rfl, by norm_num [RealSolution.clone, realSol0, List.replicate], rfl⟩

def invalidWeights : List ℚ := [9/10, 9/10]

/-- Claim C4 counterexample: the weight vector `[0.9, 0.9]` sums to `1.8`,
deviating from `1` by far more than `1e-6`, yet plugin construction
succeeds: `New` ignores its configuration argument entirely. -/
theorem new_accepts_invalid_weights :
    ¬ |invalidWeights.sum - 1| ≤ 1 / 1000000 ∧ New invalidWeights = .ok () :=
  ⟨by
    have h : invalidWeights.sum = 9 / 5 := by norm_num [invalidWeights]
    rw [h, show (9 : ℚ) / 5 - 1 = 4 / 5 by norm_num,
      abs_of_pos (show (0 : ℚ) < 4 / 5 by norm_num)]
    norm_num, rfl⟩

/-- Claim C4 (amended): plugin construction never fails — `New` performs no
validation of the configured objective weights (nor does any other code in
the plugin), so every configuration, valid or not, is accepted. -/
theorem new_never_fails (args : List ℚ) : New args = .ok () := rfl

/-! ## Slot-reservation lemmas (C5, C6) -/

def availableAt (m : ReplicaSetMovement) (n : String) : Int :=
  lookupD m.availableSlots n 0

def scheduledAt (m : ReplicaSetMovement) (n : String) : Int :=
  lookupD (m.scheduledCount.getD []) n 0

def targetAt (m : ReplicaSetMovement) (n : String) : Int :=
  lookupD m.targetDistribution n 0

theorem consumeInMovements_no_match (ms : List ReplicaSetMovement) (rsKey nodeName : String)
    (h : findMov ms rsKey = none) :
    consumeInMovements ms rsKey nodeName = (ms, false) := by
  induction ms with
  | nil => rfl
  | cons m rest ih =>
    by_cases hk : movementKey m = rsKey
    · simp [findMov, hk] at h
    · simp only [findMov, hk, if_false] at h
      simp [consumeInMovements, hk, ih h]

theorem consumeInMovements_no_slot (ms : List ReplicaSetMovement) (rsKey nodeName : String)
    (m : ReplicaSetMovement) (hm : findMov ms rsKey = some m)
    (hs : ¬ 0 < availableAt m nodeName) :
    consumeInMovements ms rsKey nodeName = (ms, false) := by
  induction ms with
  | nil => simp [findMov] at hm
  | cons m' rest ih =>
    by_cases hk : movementKey m' = rsKey
    · simp only [findMov, hk, if_true, Option.some.injEq] at hm
      subst hm
      simp [consumeInMovements, hk, availableAt] at hs ⊢
      omega
    · simp only [findMov, hk, if_false] at hm
      simp [consumeInMovements, hk, ih hm]

theorem consumeInMovements_consumes (ms : List ReplicaSetMovement) (rsKey nodeName : String)
    (m : ReplicaSetMovement) (hm : findMov ms rsKey = some m)
    (hs : 0 < availableAt m nodeName) :
    (consumeInMovements ms rsKey nodeName).2 = true ∧
    findMov (consumeInMovements ms rsKey nodeName).1 rsKey =
      some (consumeOnMovement m nodeName) := by
  induction ms with
  | nil => simp [findMov] at hm
  | cons m' rest ih =>
    by_cases hk : movementKey m' = rsKey
    · simp only [findMov, hk, if_true, Option.some.injEq] at hm
      subst hm
      rw [availableAt] at hs
      have hkey : movementKey (consumeOnMovement m' nodeName) = rsKey := hk
      simp only [consumeInMovements, hk, if_true, hs, findMov, hkey]
      exact ⟨trivial, trivial⟩
    · simp only [findMov, hk, if_false] at hm
      have h2 := ih hm
      simp only [consumeInMovements, hk, if_false, findMov]
      exact ⟨h2.1, by simp [hk, h2.2]⟩

theorem availableAt_consume_same (m : ReplicaSetMovement) (nodeName : String) :
    availableAt (consumeOnMovement m nodeName) nodeName = availableAt m nodeName - 1 := by
  simp [availableAt, consumeOnMovement, lookupD_setKey_same]

theorem availableAt_consume_other (m : ReplicaSetMovement) (nodeName n : String)
    (h : n ≠ nodeName) :
    availableAt (consumeOnMovement m nodeName) n = availableAt m n := by
  simp [availableAt, consumeOnMovement, lookupD_setKey_other _ _ _ _ _ h]

theorem scheduledAt_consume_same (m : ReplicaSetMovement) (nodeName : String) :
    scheduledAt (consumeOnMovement m nodeName) nodeName = scheduledAt m nodeName + 1 := by
  simp [scheduledAt, consumeOnMovement, lookupD_setKey_same]

theorem scheduledAt_consume_other (m : ReplicaSetMovement) (nodeName n : String)
    (h : n ≠ nodeName) :
    scheduledAt (consumeOnMovement m nodeName) n = scheduledAt m n := by
  simp [scheduledAt, consumeOnMovement, lookupD_setKey_other _ _ _ _ _ h]

theorem targetAt_consume (m : ReplicaSetMovement) (nodeName n : String) :
    targetAt (consumeOnMovement m nodeName) n = targetAt m n := by
  simp [targetAt, consumeOnMovement]

theorem tryConsumeSlotStep_no_slot (h : SchedulingHint) (rsKey nodeName : String)
    (m : ReplicaSetMovement) (hm : movementOf h rsKey = some m)
    (hs : ¬ 0 < availableAt m nodeName) :
    tryConsumeSlotStep h rsKey nodeName = (h, false) := by
  unfold movementOf at hm
  unfold tryConsumeSlotStep
  cases hsol : h.spec.solutions with
  | nil => rfl
  | cons top rest =>
    rw [hsol] at hm
    simp [consumeInMovements_no_slot top.replicaSetMovements rsKey nodeName m hm hs]

theorem tryConsumeSlotStep_consumes (h : SchedulingHint) (rsKey nodeName : String)
    (m : ReplicaSetMovement) (hm : movementOf h rsKey = some m)
    (hs : 0 < availableAt m nodeName) :
    (tryConsumeSlotStep h rsKey nodeName).2 = true ∧
    movementOf (tryConsumeSlotStep h rsKey nodeName).1 rsKey =
      some (consumeOnMovement m nodeName) := by
  unfold movementOf at hm
  unfold tryConsumeSlotStep
  cases hsol : h.spec.solutions with
  | nil => rw [hsol] at hm; simp at hm
  | cons top rest =>
    rw [hsol] at hm
    have hc := consumeInMovements_consumes top.replicaSetMovements rsKey nodeName m hm hs
    simp only [hc.1, if_true, movementOf]
    exact ⟨trivial, hc.2⟩

/-- Claim C5: one reservation attempt keeps `scheduled[n] + available[n] =
target[n]` and `available[n] ≥ 0` for every node `n` of the group's
movement; a successful attempt (only possible when `available[nodeName] >
0`) decrements `available[nodeName]` by exactly 1 and increments
`scheduled[nodeName]` by exactly 1, creating the scheduled map if missing;
a failed attempt leaves the plan record untouched. -/
theorem tryConsumeSlot_counter_invariant (h : SchedulingHint) (rsKey nodeName n : String)
    (m : ReplicaSetMovement) (hm : movementOf h rsKey = some m)
    (hsum : scheduledAt m n + availableAt m n = targetAt m n)
    (hpos : 0 ≤ availableAt m n) :
    ∃ m', movementOf (tryConsumeSlotStep h rsKey nodeName).1 rsKey = some m' ∧
      scheduledAt m' n + availableAt m' n = targetAt m' n ∧
      0 ≤ availableAt m' n ∧
      ((tryConsumeSlotStep h rsKey nodeName).2 = true →
        0 < availableAt m nodeName ∧
        availableAt m' nodeName = availableAt m nodeName - 1 ∧
        scheduledAt m' nodeName = scheduledAt m nodeName + 1) ∧
      ((tryConsumeSlotStep h rsKey nodeName).2 = false →
        (tryConsumeSlotStep h rsKey nodeName).1 = h) := by
  by_cases hs : 0 < availableAt m nodeName
  · have hc := tryConsumeSlotStep_consumes h rsKey nodeName m hm hs
    refine ⟨consumeOnMovement m nodeName, hc.2, ?_, ?_, ?_, ?_⟩
    · by_cases hn : n = nodeName
      · subst hn
        rw [availableAt_consume_same, scheduledAt_consume_same, targetAt_consume]
        omega
      · rw [availableAt_consume_other _ _ _ hn, scheduledAt_consume_other _ _ _ hn,
          targetAt_consume]
        exact hsum
    · by_cases hn : n = nodeName
      · subst hn
        rw [availableAt_consume_same]
        omega
      · rw [availableAt_consume_other _ _ _ hn]
        exact hpos
    · intro _
      exact ⟨hs, availableAt_consume_same m nodeName, scheduledAt_consume_same m nodeName⟩
    · intro hfalse
      rw [hc.1] at hfalse
      exact absurd hfalse (by simp)
  · have hc := tryConsumeSlotStep_no_slot h rsKey nodeName m hm hs
    refine ⟨m, ?_, hsum, hpos, ?_, ?_⟩
    · rw [hc]
      exact hm
    · intro htrue
      rw [hc] at htrue
      exact absurd htrue (by simp)
    · intro _
      rw [hc]

/-- Concrete witness data for C5: a hint with available slots. -/
def freshHint : SchedulingHint :=
  { name := "multiobjective-hints-0123456789abcdef"
    spec :=
      { clusterFingerprint := "0123456789abcdef"
        clusterNodes := ["node-a", "node-b"]
        originalReplicaSetDistribution := []
        solutions := [sol0]
        expirationTime := some 3600
        generatedAt := some 0
        deschedulerVersion := "v1" } }

theorem tryConsumeSlot_counter_invariant_witness :
    ∃ m', movementOf (tryConsumeSlotStep freshHint "default/web" "node-a").1 "default/web" =
        some m' ∧
      scheduledAt m' "node-a" + availableAt m' "node-a" = targetAt m' "node-a" ∧
      0 ≤ availableAt m' "node-a" ∧
      ((tryConsumeSlotStep freshHint "default/web" "node-a").2 = true →
        0 < availableAt mov0 "node-a" ∧
        availableAt m' "node-a" = availableAt mov0 "node-a" - 1 ∧
        scheduledAt m' "node-a" = scheduledAt mov0 "node-a" + 1) ∧
      ((tryConsumeSlotStep freshHint "default/web" "node-a").2 = false →
        (tryConsumeSlotStep freshHint "default/web" "node-a").1 = freshHint) :=
  tryConsumeSlot_counter_invariant freshHint "default/web" "node-a" "node-a" mov0
    (by decide) (by decide) (by decide)

theorem consumeLoop_attempt_bound (fetches : Nat → Except String SchedulingHint)
    (updates : Nat → Bool) (rsKey nodeName : String) :
    ∀ (fuel attempt : Nat), attempt + fuel = maxRetries + 1 →
      (consumeLoop fetches updates rsKey nodeName attempt fuel).2 ≤ maxRetries := by
  intro fuel
  induction fuel with
  | zero =>
    intro attempt hsum
    simp only [consumeLoop]
    omega
  | succ fuel ih =>
    intro attempt hsum
    have hle : attempt ≤ maxRetries := by omega
    simp only [consumeLoop]
    cases fetches attempt with
    | error e =>
      by_cases hat : attempt = maxRetries
      · simp [hat]
      · simp only [hat, if_false]
        exact ih (attempt + 1) (by omega)
    | ok fresh =>
      by_cases hstep : (tryConsumeSlotStep fresh rsKey nodeName).2 = true
      · simp only [hstep, if_true]
        by_cases hupd : updates attempt = true
        · simp [hupd, hle]
        · simp only [hupd, Bool.false_eq_true, if_false]
          by_cases hat : attempt = maxRetries
          · simp [hat]
          · simp only [hat, if_false]
            exact ih (attempt + 1) (by omega)
      · simp only [Bool.not_eq_true] at hstep
        simp [hstep, hle]

/-- Claim C6: the reservation protocol performs at most `maxRetries = 3`
fetch-modify-write attempts, and when the first fresh fetch yields a plan on
which the attempt cannot consume (no solutions, group absent from the top
solution, or `available[nodeName] ≤ 0`) it fails on attempt 1, with no
retry. -/
theorem tryConsumeSlot_bounded_and_no_retry (fetches : Nat → Except String SchedulingHint)
    (updates : Nat → Bool) (rsKey nodeName : String) (h : SchedulingHint)
    (hfetch : fetches 1 = .ok h)
    (hno : (tryConsumeSlotStep h rsKey nodeName).2 = false) :
    (∀ (cfg : Bool) (f : Nat → Except String SchedulingHint) (u : Nat → Bool)
      (k nn : String), (tryConsumeSlot cfg f u k nn).2 ≤ maxRetries) ∧
    tryConsumeSlot true fetches updates rsKey nodeName = (false, 1) := by
  constructor
  · intro cfg f u k nn
    unfold tryConsumeSlot
    by_cases hcfg : cfg = true
    · simp only [hcfg, if_true]
      exact consumeLoop_attempt_bound f u k nn maxRetries 1 rfl
    · simp only [hcfg]
      simp [maxRetries]
  · unfold tryConsumeSlot
    simp only [if_true, consumeLoop, hfetch, hno]
    simp [maxRetries]

/-- A hint whose only movement has zero available slots on `node-a`. -/
def drainedHint : SchedulingHint :=
  { name := "multiobjective-hints-0123456789abcdef"
    spec :=
      { clusterFingerprint := "0123456789abcdef"
        clusterNodes := ["node-a"]
        originalReplicaSetDistribution := []
        solutions :=
          [{ rank := 1
             weightedScore := 0
             objectives := ⟨0, 0, 0⟩
             movementCount := 0
             replicaSetMovements :=
               [{ replicaSetName := "web"
                  ns := "default"
                  targetDistribution := [("node-a", 2)]
                  availableSlots := [("node-a", 0)]
                  scheduledCount := some [("node-a", 2)]
                  reason := "" }] }]
        expirationTime := some 3600
        generatedAt := some 0
        deschedulerVersion := "v1" } }

theorem tryConsumeSlot_bounded_and_no_retry_witness :
    (∀ (cfg : Bool) (f : Nat → Except String SchedulingHint) (u : Nat → Bool)
      (k nn : String), (tryConsumeSlot cfg f u k nn).2 ≤ maxRetries) ∧
    tryConsumeSlot true (fun _ => .ok drainedHint) (fun _ => true) "default/web" "node-a" =
      (false, 1) :=
  tryConsumeSlot_bounded_and_no_retry (fun _ => .ok drainedHint) (fun _ => true)
    "default/web" "node-a" drainedHint rfl (by decide)

/-! ## `selectBestNode` lemmas (C7, C10) -/

/-- The fold step of `bestOfMovement`, named for the invariant proofs. -/
def bestStep (m : ReplicaSetMovement) (avail : List String)
    (acc : String × Int) (p : String × Int) : String × Int :=
  if avail.contains p.1 && decide (0 < lookupD m.availableSlots p.1 0) &&
      decide (acc.2 < p.2)
  then (p.1, p.2) else acc

theorem bestOfMovement_eq_fold (m : ReplicaSetMovement) (avail : List String) :
    bestOfMovement m avail = m.targetDistribution.foldl (bestStep m avail) ("", 0) := rfl

theorem bestStep_fold_spec (m : ReplicaSetMovement) (avail : List String) :
    ∀ (l : List (String × Int)) (acc : String × Int), 0 ≤ acc.2 →
      0 ≤ (l.foldl (bestStep m avail) acc).2 ∧
      acc.2 ≤ (l.foldl (bestStep m avail) acc).2 ∧
      (∀ p ∈ l, avail.contains p.1 = true → 0 < lookupD m.availableSlots p.1 0 →
        p.2 ≤ (l.foldl (bestStep m avail) acc).2) ∧
      (l.foldl (bestStep m avail) acc = acc ∨
        ((l.foldl (bestStep m avail) acc) ∈ l ∧
          avail.contains (l.foldl (bestStep m avail) acc).1 = true ∧
          0 < lookupD m.availableSlots (l.foldl (bestStep m avail) acc).1 0 ∧
          0 < (l.foldl (bestStep m avail) acc).2)) := by
  intro l
  induction l with
  | nil => intro acc h0; exact ⟨h0, le_refl _, by simp, Or.inl rfl⟩
  | cons p rest ih =>
    intro acc h0
    by_cases htake :
        (avail.contains p.1 && decide (0 < lookupD m.availableSlots p.1 0) &&
          decide (acc.2 < p.2)) = true
    · have hstep : bestStep m avail acc p = (p.1, p.2) := by
        unfold bestStep; rw [htake]; rfl
      simp only [Bool.and_eq_true, decide_eq_true_eq] at htake
      obtain ⟨⟨hav, hslot⟩, hlt⟩ := htake
      have hp2 : 0 ≤ p.2 := le_of_lt (lt_of_le_of_lt h0 hlt)
      have hrec := ih (p.1, p.2) hp2
      rw [List.foldl_cons, hstep]
      refine ⟨hrec.1, le_trans (le_of_lt hlt) hrec.2.1, ?_, ?_⟩
      · intro q hq hqa hqs
        rcases List.mem_cons.mp hq with hq | hq
        · subst hq
          exact hrec.2.1
        · exact hrec.2.2.1 q hq hqa hqs
      · rcases hrec.2.2.2 with heq | hmem
        · right
          rw [heq]
          exact ⟨List.mem_cons_self _ _, hav, hslot, lt_of_le_of_lt h0 hlt⟩
        · right
          exact ⟨List.mem_cons_of_mem _ hmem.1, hmem.2⟩
    · have hstep : bestStep m avail acc p = acc := by
        unfold bestStep; exact if_neg htake
      have hrec := ih acc h0
      rw [List.foldl_cons, hstep]
      refine ⟨hrec.1, hrec.2.1, ?_, ?_⟩
      · intro q hq hqa hqs
        rcases List.mem_cons.mp hq with hq | hq
        · subst hq
          have hnl : ¬ acc.2 < q.2 := by
            intro hlt
            apply htake
            rw [hqa]
            simp [hqs, hlt]
          exact le_trans (not_lt.mp hnl) hrec.2.1
        · exact hrec.2.2.1 q hq hqa hqs
      · rcases hrec.2.2.2 with heq | hmem
        · exact Or.inl heq
        · exact Or.inr ⟨List.mem_cons_of_mem _ hmem.1, hmem.2⟩

theorem selectGo_of_findMov (ms : List ReplicaSetMovement) (rsKey : String)
    (avail : List String) (m : ReplicaSetMovement) (hm : findMov ms rsKey = some m) :
    selectGo ms rsKey avail = (bestOfMovement m avail).1 := by
  induction ms with
  | nil => simp [findMov] at hm
  | cons m' rest ih =>
    by_cases hk : movementKey m' = rsKey
    · simp only [findMov, hk, if_true, Option.some.injEq] at hm
      subst hm
      simp [selectGo, hk]
    · simp only [findMov, hk, if_false] at hm
      simp [selectGo, hk, ih hm]

theorem selectGo_of_no_findMov (ms : List ReplicaSetMovement) (rsKey : String)
    (avail : List String) (hm : findMov ms rsKey = none) :
    selectGo ms rsKey avail = "" := by
  induction ms with
  | nil => rfl
  | cons m' rest ih =>
    by_cases hk : movementKey m' = rsKey
    · simp [findMov, hk] at hm
    · simp only [findMov, hk, if_false] at hm
      simp [selectGo, hk, ih hm]

def zeroTargetMov : ReplicaSetMovement :=
  { replicaSetName := "web"
    ns := "default"
    targetDistribution := [("node-a", 0)]
    availableSlots := [("node-a", 5)]
    scheduledCount := none
    reason := "" }

def zeroTargetSol : OptimizationSolution :=
  { rank := 1
    weightedScore := 0
    objectives := ⟨0, 0, 0⟩
    movementCount := 0
    replicaSetMovements := [zeroTargetMov] }

def nodeAMeta : NodeMeta := { name := "node-a", labels := [] }

/-- Claim C7 counterexample: `node-a` is in the candidate list and has
`available["node-a"] = 5 > 0`, so by the claim it qualifies and, having the
maximum target count (its `target` entry is `0`, the only entry),
`selectBestNode` should return it; the code returns `""` because the scan
only accepts entries with a strictly positive target count. -/
theorem selectBestNode_ignores_zero_target :
    selectBestNode zeroTargetSol "default/web" [nodeAMeta] = "" ∧
    (((([nodeAMeta].filter (fun nd => !nd.labels.contains controlPlaneLabel)).map
      NodeMeta.name).contains "node-a") = true) ∧
    0 < lookupD zeroTargetMov.availableSlots "node-a" 0 ∧
    ("node-a", (0 : Int)) ∈ zeroTargetMov.targetDistribution := by
  refine ⟨rfl, rfl, by decide, by decide⟩

/-- Claim C7 (amended): when the solution has a movement for the group,
`selectBestNode` returns a node of that movement's target distribution that
is in the (control-plane-free) candidate list, has `available[node] > 0` and
a strictly positive target count that is maximal among all candidate nodes
with available slots; if no candidate node has both an available slot and a
positive target count it returns `""` (entries with `target[node] ≤ 0` never
qualify, and `""` is assumed not to be a node name). -/
theorem selectBestNode_max_positive_target (sol : OptimizationSolution) (rsKey : String)
    (filteredNodes : List NodeMeta) (m : ReplicaSetMovement)
    (hm : findMov sol.replicaSetMovements rsKey = some m)
    (hnoempty : "" ∉ m.targetDistribution.map Prod.fst) :
    (selectBestNode sol rsKey filteredNodes = "" →
      ∀ p ∈ m.targetDistribution,
        ((filteredNodes.filter (fun nd => !nd.labels.contains controlPlaneLabel)).map
          NodeMeta.name).contains p.1 = true →
        0 < lookupD m.availableSlots p.1 0 → p.2 ≤ 0) ∧
    (selectBestNode sol rsKey filteredNodes ≠ "" →
      ∃ t : Int, (selectBestNode sol rsKey filteredNodes, t) ∈ m.targetDistribution ∧
        ((filteredNodes.filter (fun nd => !nd.labels.contains controlPlaneLabel)).map
          NodeMeta.name).contains (selectBestNode sol rsKey filteredNodes) = true ∧
        0 < lookupD m.availableSlots (selectBestNode sol rsKey filteredNodes) 0 ∧
        0 < t ∧
        ∀ p ∈ m.targetDistribution,
          ((filteredNodes.filter (fun nd => !nd.labels.contains controlPlaneLabel)).map
            NodeMeta.name).contains p.1 = true →
          0 < lookupD m.availableSlots p.1 0 → p.2 ≤ t) := by
  have hsel : selectBestNode sol rsKey filteredNodes =
      (bestOfMovement m ((filteredNodes.filter
        (fun nd => !nd.labels.contains controlPlaneLabel)).map NodeMeta.name)).1 := by
    unfold selectBestNode
    exact selectGo_of_findMov _ _ _ _ hm
  set avail := (filteredNodes.filter
    (fun nd => !nd.labels.contains controlPlaneLabel)).map NodeMeta.name with havail
  have hspec := bestStep_fold_spec m avail m.targetDistribution ("", 0) (by norm_num)
  rw [bestOfMovement_eq_fold] at hsel
  set res := m.targetDistribution.foldl (bestStep m avail) ("", 0) with hres
  rcases hspec.2.2.2 with hacc | hqual
  · constructor
    · intro _ p hp hpa hps
      have := hspec.2.2.1 p hp hpa hps
      rw [hacc] at this
      exact this
    · intro hne
      rw [hsel, hacc] at hne
      exact absurd rfl hne
  · have hne1 : res.1 ≠ "" := by
      intro h1
      apply hnoempty
      rw [← h1]
      exact List.mem_map_of_mem Prod.fst hqual.1
    constructor
    · intro hempty
      rw [hsel] at hempty
      exact absurd hempty hne1
    · intro _
      refine ⟨res.2, ?_, ?_, ?_, ?_, ?_⟩
      · rw [hsel]
        exact hqual.1
      · rw [hsel]
        exact hqual.2.1
      · rw [hsel]
        exact hqual.2.2.1
      · exact hqual.2.2.2
      · intro p hp hpa hps
        exact hspec.2.2.1 p hp hpa hps

def solAB : OptimizationSolution :=
  { rank := 1
    weightedScore := 0
    objectives := ⟨0, 0, 0⟩
    movementCount := 3
    replicaSetMovements := [mov0] }

def nodeBMeta : NodeMeta := { name := "node-b", labels := [] }

theorem selectBestNode_max_positive_target_witness :
    (selectBestNode solAB "default/web" [nodeAMeta, nodeBMeta] = "" →
      ∀ p ∈ mov0.targetDistribution,
        (([nodeAMeta, nodeBMeta].filter
          (fun nd => !nd.labels.contains controlPlaneLabel)).map
          NodeMeta.name).contains p.1 = true →
        0 < lookupD mov0.availableSlots p.1 0 → p.2 ≤ 0) ∧
    (selectBestNode solAB "default/web" [nodeAMeta, nodeBMeta] ≠ "" →
      ∃ t : Int, (selectBestNode solAB "default/web" [nodeAMeta, nodeBMeta], t) ∈
          mov0.targetDistribution ∧
        (([nodeAMeta, nodeBMeta].filter
          (fun nd => !nd.labels.contains controlPlaneLabel)).map
          NodeMeta.name).contains
          (selectBestNode solAB "default/web" [nodeAMeta, nodeBMeta]) = true ∧
        0 < lookupD mov0.availableSlots
          (selectBestNode solAB "default/web" [nodeAMeta, nodeBMeta]) 0 ∧
        0 < t ∧
        ∀ p ∈ mov0.targetDistribution,
          (([nodeAMeta, nodeBMeta].filter
            (fun nd => !nd.labels.contains controlPlaneLabel)).map
            NodeMeta.name).contains p.1 = true →
          0 < lookupD mov0.availableSlots p.1 0 → p.2 ≤ t) :=
  selectBestNode_max_positive_target solAB "default/web" [nodeAMeta, nodeBMeta] mov0
    (by decide) (by decide)

/-- Claim C10: `selectBestNode` never returns the name of a control-plane
labelled candidate node (node names assumed distinct and nonempty, as in a
real cluster): the `availableNodes` set is built skipping every filtered
node carrying the `node-role.kubernetes.io/control-plane` label, and the
returned node, when nonempty, is drawn from that set. -/
theorem selectBestNode_excludes_control_plane (sol : OptimizationSolution) (rsKey : String)
    (filteredNodes : List NodeMeta) (nd : NodeMeta)
    (hnodup : (filteredNodes.map NodeMeta.name).Nodup)
    (hmem : nd ∈ filteredNodes)
    (hcp : nd.labels.contains controlPlaneLabel = true)
    (hname : nd.name ≠ "") :
    selectBestNode sol rsKey filteredNodes ≠ nd.name := by
  intro hres
  rcases hfm : findMov sol.replicaSetMovements rsKey with _ | m
  · rw [selectBestNode, selectGo_of_no_findMov _ _ _ hfm] at hres
    exact hname hres.symm
  · have hsel : selectBestNode sol rsKey filteredNodes =
        (bestOfMovement m ((filteredNodes.filter
          (fun x => !x.labels.contains controlPlaneLabel)).map NodeMeta.name)).1 := by
      unfold selectBestNode
      exact selectGo_of_findMov _ _ _ _ hfm
    set avail := (filteredNodes.filter
      (fun x => !x.labels.contains controlPlaneLabel)).map NodeMeta.name with havail
    have hspec := bestStep_fold_spec m avail m.targetDistribution ("", 0) (by norm_num)
    rw [bestOfMovement_eq_fold] at hsel
    set res := m.targetDistribution.foldl (bestStep m avail) ("", 0) with hresdef
    rcases hspec.2.2.2 with hacc | hqual
    · rw [hsel, hacc] at hres
      exact hname hres.symm
    · have hinav : res.1 ∈ avail := by
        have := hqual.2.1
        simpa using this
      rw [havail] at hinav
      rcases List.mem_map.mp hinav with ⟨nd', hnd', hndname⟩
      rcases List.mem_filter.mp hnd' with ⟨hnd'mem, hnd'ncp⟩
      have hsame : nd'.name = nd.name := by
        rw [hndname, ← hsel, hres]
      have : nd' = nd :=
        List.inj_on_of_nodup_map hnodup hnd'mem hmem hsame
      rw [this] at hnd'ncp
      rw [hcp] at hnd'ncp
      simp at hnd'ncp

def cpNodeMeta : NodeMeta :=
  { name := "cp-node", labels := [controlPlaneLabel] }

theorem selectBestNode_excludes_control_plane_witness :
    selectBestNode sol0 "default/web" [cpNodeMeta, nodeAMeta] ≠ cpNodeMeta.name :=
  selectBestNode_excludes_control_plane sol0 "default/web" [cpNodeMeta, nodeAMeta]
    cpNodeMeta (by decide) (by decide) (by decide) (by decide)

/-- Claim C8: `Score` returns the minimum score when the cycle state is
absent (`Read` error) or of the wrong type, when `hasHint` is false, or when
the scored node differs from the stored target node; on the target node
(valid state, `hasHint = true`) it returns the maximum score iff the slot
reservation succeeds, and the minimum score when it fails. -/
theorem score_spec (read : Except String StateData) (nodeName : String) (configOk : Bool)
    (fetches : Nat → Except String SchedulingHint) (updates : Nat → Bool) :
    (∀ e, read = .error e →
      Score read nodeName configOk fetches updates = MinNodeScore) ∧
    (read = .ok .other →
      Score read nodeName configOk fetches updates = MinNodeScore) ∧
    (∀ st, read = .ok (.mo st) →
      (st.hasHint = false →
        Score read nodeName configOk fetches updates = MinNodeScore) ∧
      (st.hasHint = true → nodeName ≠ st.targetNode →
        Score read nodeName configOk fetches updates = MinNodeScore) ∧
      (st.hasHint = true → nodeName = st.targetNode →
        (Score read nodeName configOk fetches updates = MaxNodeScore ↔
          (tryConsumeSlot configOk fetches updates st.rsKey nodeName).1 = true) ∧
        ((tryConsumeSlot configOk fetches updates st.rsKey nodeName).1 = false →
          Score read nodeName configOk fetches updates = MinNodeScore))) := by
  refine ⟨?_, ?_, ?_⟩
  · intro e he
    rw [he]
    rfl
  · intro he
    rw [he]
    rfl
  · intro st hst
    subst hst
    refine ⟨?_, ?_, ?_⟩
    · intro hh
      simp [Score, hh]
    · intro hh hne
      simp [Score, hh, hne]
    · intro hh heq
      subst heq
      cases hcv : (tryConsumeSlot configOk fetches updates st.rsKey st.targetNode).1 with
      | false =>
        have hs : Score (.ok (.mo st)) st.targetNode configOk fetches updates =
            MinNodeScore := by
          simp [Score, hh, hcv]
        refine ⟨?_, fun _ => hs⟩
        rw [hs]
        constructor
        · intro habs
          exact absurd habs (by decide)
        · intro habs
          simp at habs
      | true =>
        have hs : Score (.ok (.mo st)) st.targetNode configOk fetches updates =
            MaxNodeScore := by
          simp [Score, hh, hcv]
        exact ⟨⟨fun _ => rfl, fun _ => hs⟩, fun habs => by simp at habs⟩

def okState : MultiObjectiveState :=
  { targetNode := "node-a"
    hasHint := true
    hint := some freshHint
    rsKey := "default/web" }

def okRead : Except String StateData := .ok (.mo okState)

theorem score_spec_witness :
    (∀ e, okRead = .error e →
      Score okRead "node-a" true (fun _ => .ok freshHint) (fun _ => true) = MinNodeScore) ∧
    (okRead = .ok .other →
      Score okRead "node-a" true (fun _ => .ok freshHint) (fun _ => true) = MinNodeScore) ∧
    (∀ st, okRead = .ok (.mo st) →
      (st.hasHint = false →
        Score okRead "node-a" true (fun _ => .ok freshHint) (fun _ => true) =
          MinNodeScore) ∧
      (st.hasHint = true → "node-a" ≠ st.targetNode →
        Score okRead "node-a" true (fun _ => .ok freshHint) (fun _ => true) =
          MinNodeScore) ∧
      (st.hasHint = true → "node-a" = st.targetNode →
        (Score okRead "node-a" true (fun _ => .ok freshHint) (fun _ => true) =
            MaxNodeScore ↔
          (tryConsumeSlot true (fun _ => .ok freshHint) (fun _ => true) st.rsKey
            "node-a").1 = true) ∧
        ((tryConsumeSlot true (fun _ => .ok freshHint) (fun _ => true) st.rsKey
            "node-a").1 = false →
          Score okRead "node-a" true (fun _ => .ok freshHint) (fun _ => true) =
            MinNodeScore))) :=
  score_spec okRead "node-a" true (fun _ => .ok freshHint) (fun _ => true)

/-! ## Power objective theorems (C3) -/

/-- A node at 10% current CPU utilization with `p_busy = p_idle = 200`. -/
def nodeLowUtil : NodeInfoR :=
  { annotations := [(NodeAnnotationPowerIdle, 200), (NodeAnnotationPowerBusy, 200)]
    requestedMilliCPU := 100
    allocatableMilliCPU := 1000 }

/-- The same node shape at 50% current CPU utilization. -/
def nodeMidUtil : NodeInfoR :=
  { annotations := [(NodeAnnotationPowerIdle, 200), (NodeAnnotationPowerBusy, 200)]
    requestedMilliCPU := 500
    allocatableMilliCPU := 1000 }

def pod100 : PodR := { milliCPU := 100 }

def pod700 : PodR := { milliCPU := 700 }

theorem annot_low_idle : getAnnotFloat nodeLowUtil NodeAnnotationPowerIdle = 200 := by
  simp [getAnnotFloat, nodeLowUtil, lookupD]

theorem annot_low_busy : getAnnotFloat nodeLowUtil NodeAnnotationPowerBusy = 200 := by
  have hne : NodeAnnotationPowerIdle ≠ NodeAnnotationPowerBusy := by decide
  simp [getAnnotFloat, nodeLowUtil, lookupD, hne]

theorem annot_mid_idle : getAnnotFloat nodeMidUtil NodeAnnotationPowerIdle = 200 := by
  simp [getAnnotFloat, nodeMidUtil, lookupD]

theorem annot_mid_busy : getAnnotFloat nodeMidUtil NodeAnnotationPowerBusy = 200 := by
  have hne : NodeAnnotationPowerIdle ≠ NodeAnnotationPowerBusy := by decide
  simp [getAnnotFloat, nodeMidUtil, lookupD, hne]

theorem power_low_value :
    calculatePowerConsumption pod100 nodeLowUtil =
      200 + 200 * Real.exp (-(5 : ℝ) * (1 / 10) / (2 / 10)) := by
  rw [calculatePowerConsumption]
  rw [annot_low_idle, annot_low_busy]
  have hreq : ((nodeLowUtil.requestedMilliCPU : Int) : ℝ) = 100 := by norm_num [nodeLowUtil]
  have halloc : ((nodeLowUtil.allocatableMilliCPU : Int) : ℝ) = 1000 := by
    norm_num [nodeLowUtil]
  have hpod : ((pod100.milliCPU : Int) : ℝ) = 100 := by norm_num [pod100]
  rw [hreq, halloc, hpod]
  have hcu : (100 : ℝ) / 1000 = 1 / 10 := by norm_num
  rw [hcu]
  rw [if_pos (by norm_num : (1 : ℝ) / 10 < 0.2)]
  have : (0.2 : ℝ) = 2 / 10 := by norm_num
  rw [this]
  ring

theorem power_mid_value : calculatePowerConsumption pod100 nodeMidUtil = 200 := by
  rw [calculatePowerConsumption]
  rw [annot_mid_idle, annot_mid_busy]
  have hreq : ((nodeMidUtil.requestedMilliCPU : Int) : ℝ) = 500 := by norm_num [nodeMidUtil]
  have halloc : ((nodeMidUtil.allocatableMilliCPU : Int) : ℝ) = 1000 := by
    norm_num [nodeMidUtil]
  have hpod : ((pod100.milliCPU : Int) : ℝ) = 100 := by norm_num [pod100]
  rw [hreq, halloc, hpod]
  have hcu : (500 : ℝ) / 1000 = 1 / 2 := by norm_num
  rw [hcu]
  rw [if_neg (by norm_num : ¬ ((1 : ℝ) / 2 < 0.2))]
  ring

/-- Claim C3 counterexample: two nodes with identical annotations satisfying
`p_busy = p_idle = 200` and identical allocatable CPU, differing only in
current utilization (10% vs 50%), give different power-objective values for
the same pod: the low-utilization penalty `p_idle · exp(−5·u_now/0.2)`
depends on the current utilization even when `p_busy = p_idle`. -/
theorem power_objective_not_constant :
    getAnnotFloat nodeLowUtil NodeAnnotationPowerBusy =
      getAnnotFloat nodeLowUtil NodeAnnotationPowerIdle ∧
    getAnnotFloat nodeMidUtil NodeAnnotationPowerBusy =
      getAnnotFloat nodeMidUtil NodeAnnotationPowerIdle ∧
    getAnnotFloat nodeLowUtil NodeAnnotationPowerIdle =
      getAnnotFloat nodeMidUtil NodeAnnotationPowerIdle ∧
    calculatePowerConsumption pod100 nodeLowUtil ≠
      calculatePowerConsumption pod100 nodeMidUtil := by
  refine ⟨by rw [annot_low_idle, annot_low_busy], by rw [annot_mid_idle, annot_mid_busy],
    by rw [annot_low_idle, annot_mid_idle], ?_⟩
  rw [power_low_value, power_mid_value]
  have hexp : 0 < Real.exp (-(5 : ℝ) * (1 / 10) / (2 / 10)) := Real.exp_pos _
  intro habs
  nlinarith [hexp]

/-- Claim C3 (amended): with `p_busy = p_idle` the power objective is
independent of the pod being placed and hence of the new utilization
`u_new` (the `(p_busy − p_idle) · u_new` term vanishes); it is not constant
in general, because the low-utilization penalty still varies with the
node's current utilization `u_now` whenever `p_idle ≠ 0`. -/
theorem power_independent_of_new_util (p1 p2 : PodR) (node : NodeInfoR)
    (h : getAnnotFloat node NodeAnnotationPowerBusy =
      getAnnotFloat node NodeAnnotationPowerIdle) :
    calculatePowerConsumption p1 node = calculatePowerConsumption p2 node := by
  rw [calculatePowerConsumption, calculatePowerConsumption, h]
  ring

theorem power_independent_of_new_util_witness :
    getAnnotFloat nodeLowUtil NodeAnnotationPowerBusy =
      getAnnotFloat nodeLowUtil NodeAnnotationPowerIdle ∧
    calculatePowerConsumption pod100 nodeLowUtil =
      calculatePowerConsumption pod700 nodeLowUtil :=
  ⟨by rw [annot_low_idle, annot_low_busy],
    power_independent_of_new_util pod100 pod700 nodeLowUtil
      (by rw [annot_low_idle, annot_low_busy])⟩

/-! ## NSGA-II engine (framework-based variant of `algorithms/nsga2`)

The engine is generic over the `framework.Solution` interface, so the
solution type `S` and its `Clone`/`Crossover`/`Mutate` methods are
parameters; the problem supplies constraints, objectives and the population
seeder, as in `framework.Problem`. Objective values (`float64` compared and
divided, never transcendentally transformed) are modelled as `ℚ`; crowding
distances (`float64` including `math.Inf(1)`) as `WithTop ℚ`. The
`math/rand` source is an oracle stream of naturals; `rand.Intn n` reads the
next stream element modulo `n`. `sort.Slice` (unstable, unspecified tie
order) is modelled as a stable merge sort by the same comparator — one
admissible linearization. -/

namespace NSGA

structure RNG where
  stream : Nat → Nat
  pos : Nat

/-- `rand.Intn n`: the next pseudo-random draw reduced below `n`. -/
def RNG.intn (r : RNG) (n : Nat) : Nat × RNG :=
  (r.stream r.pos % n, { r with pos := r.pos + 1 })

/-- `NSGAIISolution`: solution, objective-space value, rank, crowding
distance. -/
structure Ind (S : Type) where
  solution : S
  value : List ℚ
  rank : Nat
  distance : WithTop ℚ

instance {S : Type} [Inhabited S] : Inhabited (Ind S) := ⟨⟨default, [], 0, 0⟩⟩

/-- `NewNSGAIISolution`: `Rank` and `Distance` start at their Go zero
values. -/
def newSol {S : Type} (sol : S) (val : List ℚ) : Ind S := ⟨sol, val, 0, 0⟩

/-- The loop body of `Dominates`: walk both value vectors, fail on a
strictly worse coordinate, remember a strictly better one. (The Go code
indexes `b.Value[i]` for `i` below `len(a.Value)`; value vectors always have
one entry per objective, so the walk ends together.) -/
def domVals : List ℚ → List ℚ → Bool → Bool
  | [], _, better => better
  | _ :: _, [], better => better
  | a :: as, b :: bs, better =>
    if a > b then false else domVals as bs (better || decide (a < b))

/-- `Dominates(a, b)`. -/
def Dominates {S : Type} (a b : Ind S) : Bool := domVals a.value b.value false

/-- `dominated[i]` of `NonDominatedSort`, at index level: the indices `j ≠ i`
with `Dominates(pop[i], pop[j])`, in population order. -/
def dominatedMOf (rel : Nat → Nat → Bool) (n : Nat) (i : Nat) : List Nat :=
  (List.range n).filter (fun j => j != i && rel i j)

/-- `domCount[i]` of `NonDominatedSort`: how many `j ≠ i` dominate `i`. -/
def initDC (rel : Nat → Nat → Bool) (n : Nat) (i : Nat) : Int :=
  (((List.range n).filter (fun j => j != i && rel j i)).length : Int)

/-- The count table after `domCount[d]--`. -/
def updFn (dc : Nat → Int) (d : Nat) : Nat → Int :=
  fun x => if x = d then dc d - 1 else dc x

/-- One `domCount[d]--` with the append-on-zero of the front-expansion
loop. -/
def decStep (st : (Nat → Int) × List Nat) (d : Nat) : (Nat → Int) × List Nat :=
  (updFn st.1 d, if st.1 d - 1 = 0 then st.2 ++ [d] else st.2)

/-- The body of one iteration of the front-expansion loop: decrement the
count of everything dominated by a member of the current front, collecting
the indices whose count reaches zero (the next front, in processing
order). -/
def processFront (dominatedM : Nat → List Nat) (current : List Nat) (dc : Nat → Int) :
    (Nat → Int) × List Nat :=
  (current.flatMap dominatedM).foldl decStep (dc, [])

/-- The front-expansion loop of `NonDominatedSort`; `fuel` bounds the
iterations (it is `n + 1` at entry, more than the number of nonempty
fronts, so the `0` case is unreachable). Nonempty next fronts are appended
to `acc`. -/
def peelAux (dominatedM : Nat → List Nat) :
    Nat → (Nat → Int) → List Nat → List (List Nat) → List (List Nat)
  | 0, _, _, acc => acc
  | fuel + 1, dc, current, acc =>
    if current.isEmpty then acc
    else
      let pr := processFront dominatedM current dc
      peelAux dominatedM fuel pr.1 pr.2 (if pr.2.isEmpty then acc else acc ++ [pr.2])

/-- `Dominates` at index level over a fixed population. -/
def relOf {S : Type} [Inhabited S] (pop : List (Ind S)) (i j : Nat) : Bool :=
  Dominates (pop.getD i default) (pop.getD j default)

/-- `NonDominatedSort` at index level: the first front is the set of
indices with zero domination count (in index order, rank 0); subsequent
fronts come from the expansion loop. -/
def ndSortIdx {S : Type} [Inhabited S] (pop : List (Ind S)) : List (List Nat) :=
  let rel := relOf pop
  let n := pop.length
  let f0 := (List.range n).filter (fun i => initDC rel n i == 0)
  peelAux (dominatedMOf rel n) (n + 1) (initDC rel n) f0 [f0]

/-- `NonDominatedSort(population)`: fronts of individuals, each with its
rank assigned (`population[i].Rank = frontIndex`). -/
def NonDominatedSort {S : Type} [Inhabited S] (pop : List (Ind S)) : List (List (Ind S)) :=
  (ndSortIdx pop).enum.map
    (fun fr => fr.2.map (fun i => { pop.getD i default with rank := fr.1 }))

/-- `front[0].Distance = Inf; front[len-1].Distance = Inf`. -/
def setBoundaryTop {S : Type} (l : List (Ind S)) : List (Ind S) :=
  l.enum.map (fun p => if p.1 = 0 ∨ p.1 = l.length - 1 then { p.2 with distance := ⊤ } else p.2)

/-- `front[i].Distance += (front[i+1].Value[m] − front[i−1].Value[m]) /
objectiveRange` for the intermediate positions. -/
def updateMiddles {S : Type} [Inhabited S] (l : List (Ind S)) (mIdx : Nat) (rng : ℚ) :
    List (Ind S) :=
  l.enum.map (fun p =>
    if 0 < p.1 ∧ p.1 < l.length - 1 then
      { p.2 with distance := p.2.distance +
          (((((l.getD (p.1 + 1) default).value.getD mIdx 0) -
            ((l.getD (p.1 - 1) default).value.getD mIdx 0)) / rng : ℚ) : WithTop ℚ) }
    else p.2)

/-- `sort.Slice(front, Value[m] ascending)`. -/
def sortByObj {S : Type} (mIdx : Nat) (l : List (Ind S)) : List (Ind S) :=
  l.mergeSort (fun a b => decide (a.value.getD mIdx 0 ≤ b.value.getD mIdx 0))

/-- One objective's pass of `CrowdingDistance`: sort by the objective, set
the boundary distances to infinity, and, unless the objective range is
zero (`continue`), accumulate the normalized neighbour gaps. -/
def cdStep {S : Type} [Inhabited S] (fr : List (Ind S)) (mIdx : Nat) : List (Ind S) :=
  let sorted := setBoundaryTop (sortByObj mIdx fr)
  let rng := (sorted.getLastD default).value.getD mIdx 0 -
    (sorted.headD default).value.getD mIdx 0
  if rng = 0 then sorted else updateMiddles sorted mIdx rng

/-- `CrowdingDistance(front)`: fronts of at most two get infinite distance;
otherwise reset distances and accumulate, per objective, the normalized
neighbour gaps over the front sorted by that objective. -/
def CrowdingDistance {S : Type} [Inhabited S] (front : List (Ind S)) : List (Ind S) :=
  if front.length ≤ 2 then front.map (fun x => { x with distance := ⊤ })
  else
    let numObjectives := (front.headD default).value.length
    let front0 := front.map (fun x => { x with distance := 0 })
    (List.range numObjectives).foldl cdStep front0

/-- `sort.Slice(front, Distance descending)` for the truncation step. -/
def sortByDistDesc {S : Type} (l : List (Ind S)) : List (Ind S) :=
  l.mergeSort (fun a b => decide (b.distance ≤ a.distance))

/-- The new-population assembly of `Run`: add whole fronts while they fit,
then fill the remainder from the next front sorted by descending crowding
distance. -/
def buildNext {S : Type} [Inhabited S] (popSize : Nat) :
    List (List (Ind S)) → List (Ind S) → List (Ind S)
  | [], acc => acc
  | f :: rest, acc =>
    if acc.length + f.length ≤ popSize then
      buildNext popSize rest (acc ++ CrowdingDistance f)
    else if acc.length < popSize then
      acc ++ (sortByDistDesc (CrowdingDistance f)).take (popSize - acc.length)
    else acc

/-- The `framework.Solution` interface operations; the pseudo-random draws
they make are threaded through the `RNG`. -/
structure SolutionOps (S : Type) where
  clone : S → S
  crossover : S → S → ℚ → RNG → S × S × RNG
  mutate : S → ℚ → RNG → S × RNG

/-- The `framework.Problem` data the engine reads. -/
structure Prob (S : Type) where
  constraints : List (S → Bool)
  objectives : List (S → ℚ)
  initPop : Nat → List S

/-- `NSGAII` configuration; `NewNSGAII` fixes `crossoverRate = 0.8` and
`mutationRate = 0.1`. -/
structure Cfg where
  popSize : Nat
  numGenerations : Nat
  crossoverRate : ℚ
  mutationRate : ℚ

def NewNSGAII (popSize numGen : Nat) : Cfg := ⟨popSize, numGen, 8 / 10, 1 / 10⟩

/-- `Evaluate`: all constraints must pass (otherwise an error, `none`);
then one value per objective function. -/
def Evaluate {S : Type} (p : Prob S) (x : S) : Option (List ℚ) :=
  if p.constraints.all (fun c => c x) then some (p.objectives.map (fun f => f x)) else none

/-- `TournamentSelect` with tournament size 2: winner has the smaller rank,
ties broken by the larger crowding distance. -/
def TournamentSelect {S : Type} [Inhabited S] (population : List (Ind S)) (r : RNG) :
    Ind S × RNG :=
  let d1 := r.intn population.length
  let best := population.getD d1.1 default
  let d2 := d1.2.intn population.length
  let contestant := population.getD d2.1 default
  if contestant.rank < best.rank ∨
      (contestant.rank = best.rank ∧ best.distance < contestant.distance)
  then (contestant, d2.2) else (best, d2.2)

/-- The offspring-generation loop of `Run` (`for i := 0; i < popSize; i +=
2`): tournament-select two parents, crossover, mutate both children,
evaluate; a child violating a constraint is replaced by a clone of its
contributing parent carrying the parent's objective value. With `i + 1`
already out of range only the first child is kept. -/
def offspringLoop {S : Type} [Inhabited S] (ops : SolutionOps S) (p : Prob S) (cfg : Cfg)
    (population : List (Ind S)) (i : Nat) (r : RNG) : List (Ind S) × RNG :=
  if _h : i < cfg.popSize then
    let t1 := TournamentSelect population r
    let t2 := TournamentSelect population t1.2
    let cr := ops.crossover t1.1.solution t2.1.solution cfg.crossoverRate t2.2
    let m1 := ops.mutate cr.1 cfg.mutationRate cr.2.2
    let m2 := ops.mutate cr.2.1 cfg.mutationRate m1.2
    let o1 := match Evaluate p m1.1 with
      | none => newSol (ops.clone t1.1.solution) t1.1.value
      | some v => newSol m1.1 v
    if cfg.popSize ≤ i + 1 then ([o1], m2.2)
    else
      let o2 := match Evaluate p m2.1 with
        | none => newSol (ops.clone t2.1.solution) t2.1.value
        | some v => newSol m2.1 v
      let rest := offspringLoop ops p cfg population (i + 2) m2.2
      (o1 :: o2 :: rest.1, rest.2)
  else ([], r)
termination_by cfg.popSize - i

/-- One generation: offspring, combine, non-dominated sort, rebuild the
parent population front-by-front with crowding-distance truncation. -/
def generation {S : Type} [Inhabited S] (ops : SolutionOps S) (p : Prob S) (cfg : Cfg)
    (population : List (Ind S)) (r : RNG) : List (Ind S) × RNG :=
  let off := offspringLoop ops p cfg population 0 r
  let combined := population ++ off.1
  let fronts := NonDominatedSort combined
  (buildNext cfg.popSize fronts [], off.2)

def genLoop {S : Type} [Inhabited S] (ops : SolutionOps S) (p : Prob S) (cfg : Cfg) :
    Nat → List (Ind S) → RNG → List (Ind S) × RNG
  | 0, pop, r => (pop, r)
  | g + 1, pop, r =>
    let st := generation ops p cfg pop r
    genLoop ops p cfg g st.1 st.2

/-- Evaluation of the initial population; any failure is `log.Fatalf`
(`none`). -/
def evalAll {S : Type} (p : Prob S) : List S → Option (List (Ind S))
  | [] => some []
  | x :: rest =>
    match Evaluate p x with
    | none => none
    | some v =>
      match evalAll p rest with
      | none => none
      | some inds => some (newSol x v :: inds)

/-- `Run`: initialize (`log.Fatalf`, i.e. `none`, when the seeder returns
the wrong count or an infeasible individual), then iterate the
generational loop. -/
def Run {S : Type} [Inhabited S] (ops : SolutionOps S) (p : Prob S) (cfg : Cfg)
    (r : RNG) : Option (List (Ind S)) :=
  let ip := p.initPop cfg.popSize
  if ip.length ≠ cfg.popSize then none
  else
    match evalAll p ip with
    | none => none
    | some population => some (genLoop ops p cfg cfg.numGenerations population r).1

end NSGA

namespace NSGA

theorem domVals_self (v : List ℚ) (bt : Bool) : domVals v v bt = bt := by
  induction v generalizing bt with
  | nil => rfl
  | cons a as ih =>
    simp only [domVals, gt_iff_lt, lt_irrefl, if_false, decide_eq_true_eq]
    simp [ih]

theorem dominates_irrefl {S : Type} (x : Ind S) : Dominates x x = false := by
  simp [Dominates, domVals_self]

theorem domVals_iff_getD : ∀ (a b : List ℚ) (bt : Bool), a.length = b.length →
    (domVals a b bt = true ↔
      ((∀ i, i < a.length → a.getD i 0 ≤ b.getD i 0) ∧
       (bt = true ∨ ∃ i, i < a.length ∧ a.getD i 0 < b.getD i 0))) := by
  intro a
  induction a with
  | nil =>
    intro b bt hlen
    cases b with
    | nil => simp [domVals]
    | cons y ys => simp at hlen
  | cons x xs ih =>
    intro b bt hlen
    cases b with
    | nil => simp at hlen
    | cons y ys =>
      simp only [List.length_cons, Nat.succ_inj] at hlen
      by_cases hxy : x > y
      · simp only [domVals, hxy, if_true]
        constructor
        · intro h
          exact absurd h (by simp)
        · intro ⟨hle, _⟩
          have := hle 0 (by simp)
          simp at this
          exact absurd this (not_le.mpr hxy)
      · simp only [domVals, hxy, if_false]
        rw [ih ys (bt || decide (x < y)) hlen]
        constructor
        · intro ⟨hle, hex⟩
          refine ⟨?_, ?_⟩
          · intro i hi
            cases i with
            | zero => simpa using not_lt.mp hxy
            | succ j =>
              simp only [List.getD_cons_succ]
              exact hle j (by simpa using hi)
          · rcases hex with hbt | ⟨j, hj, hjlt⟩
            · rcases Bool.or_eq_true_iff.mp hbt with h | h
              · exact Or.inl h
              · exact Or.inr ⟨0, by simp, by simpa using of_decide_eq_true h⟩
            · exact Or.inr ⟨j + 1, by simpa using hj, by simpa using hjlt⟩
        · intro ⟨hle, hex⟩
          refine ⟨?_, ?_⟩
          · intro i hi
            have := hle (i + 1) (by simpa using hi)
            simpa using this
          · rcases hex with hbt | ⟨j, hj, hjlt⟩
            · exact Or.inl (by simp [hbt])
            · cases j with
              | zero =>
                simp only [List.getD_cons_zero] at hjlt
                exact Or.inl (by simp [hjlt])
              | succ k =>
                exact Or.inr ⟨k, by simpa using hj, by simpa using hjlt⟩

theorem domVals_trans (a b c : List ℚ) (hab : a.length = b.length)
    (hbc : b.length = c.length) (h1 : domVals a b false = true)
    (h2 : domVals b c false = true) : domVals a c false = true := by
  rw [domVals_iff_getD a b false hab] at h1
  rw [domVals_iff_getD b c false hbc] at h2
  rw [domVals_iff_getD a c false (hab.trans hbc)]
  obtain ⟨le1, hex1⟩ := h1
  obtain ⟨le2, _⟩ := h2
  rcases hex1 with h | ⟨i, hi, hlt⟩
  · simp at h
  refine ⟨?_, Or.inr ⟨i, hi, ?_⟩⟩
  · intro j hj
    exact le_trans (le1 j hj) (le2 j (by omega))
  · exact lt_of_lt_of_le hlt (le2 i (by omega))

end NSGA

namespace NSGA

theorem updFn_same (dc : Nat → Int) (d : Nat) : updFn dc d d = dc d - 1 := by
  simp [updFn]

theorem updFn_other (dc : Nat → Int) (d x : Nat) (h : x ≠ d) : updFn dc d x = dc x := by
  simp [updFn, h]

theorem decFold_fst : ∀ (L : List Nat) (dc : Nat → Int) (acc : List Nat) (d : Nat),
    (L.foldl decStep (dc, acc)).1 d = dc d - (L.count d : Int) := by
  intro L
  induction L with
  | nil => intro dc acc d; simp
  | cons e L ih =>
    intro dc acc d
    rw [List.foldl_cons]
    have hstep : decStep (dc, acc) e =
        (updFn dc e, if dc e - 1 = 0 then acc ++ [e] else acc) := rfl
    rw [hstep, ih]
    by_cases hd : d = e
    · subst hd
      rw [updFn_same]
      have : ((d :: L).count d : Int) = (L.count d : Int) + 1 := by
        rw [List.count_cons]
        simp
      rw [this]
      omega
    · rw [updFn_other dc e d hd]
      have : ((e :: L).count d : Int) = (L.count d : Int) := by
        rw [List.count_cons]
        simp only [beq_iff_eq]
        rw [if_neg (fun h => hd h.symm)]
        simp
      rw [this]

theorem decFold_snd_mem : ∀ (L : List Nat) (dc : Nat → Int) (acc : List Nat) (d : Nat),
    (d ∈ (L.foldl decStep (dc, acc)).2 ↔
      d ∈ acc ∨ (1 ≤ dc d ∧ dc d ≤ (L.count d : Int))) := by
  intro L
  induction L with
  | nil =>
    intro dc acc d
    simp only [List.foldl_nil, List.count_nil, Nat.cast_zero]
    constructor
    · exact fun h => Or.inl h
    · rintro (h | h)
      · exact h
      · omega
  | cons e L ih =>
    intro dc acc d
    rw [List.foldl_cons]
    have hstep : decStep (dc, acc) e =
        (updFn dc e, if dc e - 1 = 0 then acc ++ [e] else acc) := rfl
    rw [hstep, ih]
    by_cases hd : d = e
    · subst hd
      rw [updFn_same]
      have hcnt : ((d :: L).count d : Int) = (L.count d : Int) + 1 := by
        rw [List.count_cons]
        simp
      rw [hcnt]
      by_cases h1 : dc d = 1
      · rw [if_pos (by omega : dc d - 1 = 0)]
        constructor
        · intro h
          rcases h with h | h
          · rcases List.mem_append.mp h with h' | h'
            · exact Or.inl h'
            · refine Or.inr ⟨by omega, ?_⟩
              have hc0 : (0 : Int) ≤ (L.count d : Int) := by positivity
              omega
          · exact Or.inr (by omega)
        · intro _
          exact Or.inl (List.mem_append.mpr (Or.inr (List.mem_singleton.mpr rfl)))
      · rw [if_neg (by omega : ¬ (dc d - 1 = 0))]
        constructor
        · rintro (h | h)
          · exact Or.inl h
          · exact Or.inr (by omega)
        · rintro (h | h)
          · exact Or.inl h
          · exact Or.inr (by omega)
    · rw [updFn_other dc e d hd]
      have hcnt : ((e :: L).count d : Int) = (L.count d : Int) := by
        rw [List.count_cons]
        simp only [beq_iff_eq]
        rw [if_neg (fun h => hd h.symm)]
        simp
      rw [hcnt]
      by_cases h0 : dc e - 1 = 0
      · rw [if_pos h0]
        constructor
        · rintro (h | h)
          · rcases List.mem_append.mp h with h' | h'
            · exact Or.inl h'
            · exact absurd (List.mem_singleton.mp h') hd
          · exact Or.inr h
        · rintro (h | h)
          · exact Or.inl (List.mem_append.mpr (Or.inl h))
          · exact Or.inr h
      · rw [if_neg h0]

theorem decFold_snd_nodup : ∀ (L : List Nat) (dc : Nat → Int) (acc : List Nat),
    acc.Nodup → (∀ x ∈ acc, dc x ≤ 0) → (L.foldl decStep (dc, acc)).2.Nodup := by
  intro L
  induction L with
  | nil => intro dc acc hnd _; simpa using hnd
  | cons e L ih =>
    intro dc acc hnd hle
    rw [List.foldl_cons]
    have hstep : decStep (dc, acc) e =
        (updFn dc e, if dc e - 1 = 0 then acc ++ [e] else acc) := rfl
    rw [hstep]
    by_cases h0 : dc e - 1 = 0
    · rw [if_pos h0]
      apply ih
      · rw [List.nodup_append]
        refine ⟨hnd, List.nodup_singleton e, ?_⟩
        intro y hy
        simp only [List.mem_singleton]
        intro hye
        subst hye
        have := hle y hy
        omega
      · intro y hy
        rcases List.mem_append.mp hy with h | h
        · by_cases hye : y = e
          · subst hye
            rw [updFn_same]
            have := hle y h
            omega
          · rw [updFn_other dc e y hye]
            exact hle y h
        · have hye := List.mem_singleton.mp h
          subst hye
          rw [updFn_same]
          omega
    · rw [if_neg h0]
      apply ih
      · exact hnd
      · intro y hy
        by_cases hye : y = e
        · subst hye
          rw [updFn_same]
          have := hle y hy
          omega
        · rw [updFn_other dc e y hye]
          exact hle y hy

end NSGA

namespace NSGA

theorem mem_dominatedMOf (rel : Nat → Nat → Bool) (n j d : Nat) :
    d ∈ dominatedMOf rel n j ↔ d < n ∧ d ≠ j ∧ rel j d = true := by
  simp [dominatedMOf, List.mem_filter, List.mem_range, Bool.and_eq_true, bne_iff_ne,
    and_assoc]

theorem nodup_dominatedMOf (rel : Nat → Nat → Bool) (n j : Nat) :
    (dominatedMOf rel n j).Nodup :=
  List.Nodup.filter _ (List.nodup_range n)

theorem count_dominatedMOf (rel : Nat → Nat → Bool) (n j d : Nat) :
    (dominatedMOf rel n j).count d =
      if d < n ∧ d ≠ j ∧ rel j d = true then 1 else 0 := by
  by_cases h : d ∈ dominatedMOf rel n j
  · rw [List.count_eq_one_of_mem (nodup_dominatedMOf rel n j) h,
      if_pos ((mem_dominatedMOf rel n j d).mp h)]
  · rw [List.count_eq_zero_of_not_mem h,
      if_neg (fun hc => h ((mem_dominatedMOf rel n j d).mpr hc))]

theorem count_flatMap_dominatedM (rel : Nat → Nat → Bool) (n : Nat) (current : List Nat)
    (d : Nat) :
    (current.flatMap (dominatedMOf rel n)).count d =
      (current.filter (fun j => decide (d < n ∧ d ≠ j ∧ rel j d = true))).length := by
  induction current with
  | nil => rfl
  | cons j rest ih =>
    rw [List.flatMap_cons, List.count_append, count_dominatedMOf, List.filter_cons]
    by_cases h : d < n ∧ d ≠ j ∧ rel j d = true
    · rw [if_pos h, if_pos (decide_eq_true h), List.length_cons, ih]
      omega
    · rw [if_neg h, if_neg (by simp [h]), ih]
      omega

theorem length_filter_eq_card (l : List Nat) (hl : l.Nodup) (p : Nat → Prop)
    [DecidablePred p] :
    (l.filter (fun x => decide (p x))).length = (l.toFinset.filter p).card := by
  rw [← List.toFinset_card_of_nodup (List.Nodup.filter _ hl)]
  congr 1
  ext x
  simp [List.mem_toFinset, List.mem_filter, Finset.mem_filter]

theorem toFinset_list_range (n : Nat) : (List.range n).toFinset = Finset.range n := by
  ext x
  simp

/-- A finite set under a transitive irreflexive (dominance) relation has an
undominated element. -/
theorem exists_undominated (rel : Nat → Nat → Bool) (n : Nat)
    (htrans : ∀ a b c, a < n → b < n → c < n →
      rel a b = true → rel b c = true → rel a c = true)
    (hirr : ∀ a, rel a a = false) :
    ∀ (k : Nat) (U : Finset Nat), U.card = k → U ⊆ Finset.range n → U.Nonempty →
      ∃ i ∈ U, ∀ j ∈ U, rel j i = false := by
  intro k
  induction k using Nat.strong_induction_on with
  | _ k ih =>
    intro U hcard hsub hne
    obtain ⟨x, hx⟩ := hne
    by_cases hmin : ∀ j ∈ U, rel j x = false
    · exact ⟨x, hx, hmin⟩
    · push_neg at hmin
      obtain ⟨y, hy, hyx⟩ := hmin
      have hyx' : rel y x = true := by
        cases hcase : rel y x
        · exact absurd hcase hyx
        · rfl
      classical
      set U' := U.filter (fun z => rel z x = true) with hU'
      have hxU' : x ∉ U' := by
        simp [hU', Finset.mem_filter, hirr x]
      have hsubU' : U' ⊆ U := Finset.filter_subset _ _
      have hcard' : U'.card < k := by
        rw [← hcard]
        exact Finset.card_lt_card ((Finset.ssubset_iff_of_subset hsubU').mpr ⟨x, hx, hxU'⟩)
      have hneU' : U'.Nonempty := ⟨y, Finset.mem_filter.mpr ⟨hy, hyx'⟩⟩
      obtain ⟨m, hmU', hmmin⟩ :=
        ih U'.card hcard' U' rfl (fun z hz => hsub (hsubU' hz)) hneU'
      refine ⟨m, hsubU' hmU', ?_⟩
      intro j hj
      cases hjm : rel j m
      · rfl
      · exfalso
        have hmx : rel m x = true := (Finset.mem_filter.mp hmU').2
        have hjn : j < n := Finset.mem_range.mp (hsub hj)
        have hmn : m < n := Finset.mem_range.mp (hsub (hsubU' hmU'))
        have hxn : x < n := Finset.mem_range.mp (hsub hx)
        have hjx : rel j x = true := htrans j m x hjn hmn hxn hjm hmx
        have hjU' : j ∈ U' := Finset.mem_filter.mpr ⟨hj, hjx⟩
        have := hmmin j hjU'
        rw [this] at hjm
        exact Bool.false_ne_true hjm

end NSGA

namespace NSGA

theorem filter_sdiff_card (U C : Finset Nat) (hCU : C ⊆ U) (p : Nat → Prop)
    [DecidablePred p] :
    ((U \ C).filter p).card + (C.filter p).card = (U.filter p).card := by
  have hfil : (U \ C).filter p = U.filter p \ C.filter p := by
    ext x
    simp only [Finset.mem_filter, Finset.mem_sdiff]
    tauto
  rw [hfil, Finset.card_sdiff (Finset.filter_subset_filter p hCU)]
  have hle : (C.filter p).card ≤ (U.filter p).card :=
    Finset.card_le_card (Finset.filter_subset_filter p hCU)
  omega

theorem processFront_spec (rel : Nat → Nat → Bool) (n : Nat) (U : Finset Nat)
    (dc : Nat → Int) (current : List Nat)
    (hirr : ∀ a, rel a a = false)
    (hU : U ⊆ Finset.range n)
    (houter : ∀ d, d ∉ U → ∀ j ∈ U, rel j d = false)
    (hcurnd : current.Nodup)
    (hcur : ∀ i, i ∈ current ↔ i ∈ U ∧ ∀ j ∈ U, rel j i = false)
    (hdc : ∀ i ∈ U, dc i = ((U.filter (fun j => rel j i = true ∧ j ≠ i)).card : Int)) :
    (∀ d ∈ U \ current.toFinset,
      (processFront (dominatedMOf rel n) current dc).1 d =
        (((U \ current.toFinset).filter (fun j => rel j d = true ∧ j ≠ d)).card : Int)) ∧
    (∀ d, d ∈ (processFront (dominatedMOf rel n) current dc).2 ↔
      (d ∈ U \ current.toFinset ∧ ∀ j ∈ U \ current.toFinset, rel j d = false)) ∧
    (processFront (dominatedMOf rel n) current dc).2.Nodup := by
  classical
  have hcursub : ∀ i ∈ current, i ∈ U := fun i hi => ((hcur i).mp hi).1
  have hcurset : current.toFinset ⊆ U :=
    fun i hi => hcursub i (List.mem_toFinset.mp hi)
  have hcnt : ∀ d, (current.flatMap (dominatedMOf rel n)).count d =
      (current.toFinset.filter (fun j => d < n ∧ d ≠ j ∧ rel j d = true)).card := by
    intro d
    rw [count_flatMap_dominatedM, length_filter_eq_card current hcurnd]
  have hcnt_lt : ∀ d, d < n →
      current.toFinset.filter (fun j => d < n ∧ d ≠ j ∧ rel j d = true) =
        current.toFinset.filter (fun j => rel j d = true ∧ j ≠ d) := by
    intro d hd
    ext j
    simp only [Finset.mem_filter, hd, true_and]
    constructor
    · rintro ⟨h1, h2, h3⟩
      exact ⟨h1, h3, fun h => h2 h.symm⟩
    · rintro ⟨h1, h2, h3⟩
      exact ⟨h1, fun h => h3 h.symm, h2⟩
  refine ⟨?_, ?_, ?_⟩
  · intro d hd
    show ((current.flatMap (dominatedMOf rel n)).foldl decStep (dc, [])).1 d = _
    rw [decFold_fst]
    obtain ⟨hdU, hdnc⟩ := Finset.mem_sdiff.mp hd
    have hdn : d < n := Finset.mem_range.mp (hU hdU)
    rw [hdc d hdU, hcnt d, hcnt_lt d hdn]
    have hsplit := filter_sdiff_card U current.toFinset hcurset
      (fun j => rel j d = true ∧ j ≠ d)
    push_cast
    omega
  · intro d
    show d ∈ ((current.flatMap (dominatedMOf rel n)).foldl decStep (dc, [])).2 ↔ _
    rw [decFold_snd_mem]
    simp only [List.not_mem_nil, false_or]
    by_cases hdn : d < n
    · by_cases hdU : d ∈ U
      · by_cases hdcur : d ∈ current
        · have h0 : dc d = 0 := by
            rw [hdc d hdU]
            have hfe : U.filter (fun j => rel j d = true ∧ j ≠ d) = ∅ := by
              rw [Finset.filter_eq_empty_iff]
              intro j hj
              have := ((hcur d).mp hdcur).2 j hj
              simp [this]
            rw [hfe]
            simp
          constructor
          · rintro ⟨h1, _⟩
            omega
          · rintro ⟨hmem, _⟩
            exact absurd (List.mem_toFinset.mpr hdcur) (Finset.mem_sdiff.mp hmem).2
        · have hdU' : d ∈ U \ current.toFinset :=
            Finset.mem_sdiff.mpr ⟨hdU, fun h => hdcur (List.mem_toFinset.mp h)⟩
          have hA : dc d = ((U.filter (fun j => rel j d = true ∧ j ≠ d)).card : Int) :=
            hdc d hdU
          have hB : ((current.flatMap (dominatedMOf rel n)).count d : Int) =
              ((current.toFinset.filter (fun j => rel j d = true ∧ j ≠ d)).card : Int) := by
            rw [hcnt d, hcnt_lt d hdn]
          have hsplit := filter_sdiff_card U current.toFinset hcurset
            (fun j => rel j d = true ∧ j ≠ d)
          have hA1 : 0 < (U.filter (fun j => rel j d = true ∧ j ≠ d)).card := by
            have hnot := hdcur
            rw [hcur d] at hnot
            push_neg at hnot
            obtain ⟨j, hj, hjd⟩ := hnot hdU
            have hjd' : rel j d = true := by
              cases hcase : rel j d
              · exact absurd hcase hjd
              · rfl
            have hjne : j ≠ d := by
              intro h
              subst h
              rw [hirr j] at hjd'
              exact Bool.false_ne_true hjd'
            exact Finset.card_pos.mpr ⟨j, Finset.mem_filter.mpr ⟨hj, hjd', hjne⟩⟩
          constructor
          · rintro ⟨h1, h2⟩
            refine ⟨hdU', ?_⟩
            have hz : (((U \ current.toFinset).filter
                (fun j => rel j d = true ∧ j ≠ d)).card : Int) = 0 := by
              rw [hA] at h1 h2
              rw [hB] at h2
              push_cast
              omega
            have hze : ((U \ current.toFinset).filter
                (fun j => rel j d = true ∧ j ≠ d)) = ∅ := by
              rw [← Finset.card_eq_zero]
              omega
            rw [Finset.filter_eq_empty_iff] at hze
            intro j hj
            cases hcase : rel j d
            · rfl
            · exfalso
              have hjne : j ≠ d := by
                intro h
                subst h
                rw [hirr j] at hcase
                exact Bool.false_ne_true hcase
              exact hze hj ⟨hcase, hjne⟩
          · rintro ⟨_, hnone⟩
            have hze : ((U \ current.toFinset).filter
                (fun j => rel j d = true ∧ j ≠ d)) = ∅ := by
              rw [Finset.filter_eq_empty_iff]
              intro j hj hc
              rw [hnone j hj] at hc
              exact Bool.false_ne_true hc.1
            have hz0 : ((U \ current.toFinset).filter
                (fun j => rel j d = true ∧ j ≠ d)).card = 0 := by
              rw [hze]
              rfl
            rw [hA, hB]
            push_cast
            omega
      · have hB0 : ((current.flatMap (dominatedMOf rel n)).count d : Int) = 0 := by
          rw [hcnt d]
          have hfe : current.toFinset.filter (fun j => d < n ∧ d ≠ j ∧ rel j d = true) = ∅ := by
            rw [Finset.filter_eq_empty_iff]
            rintro j hj ⟨_, _, hrel⟩
            have hje : j ∈ U := hcurset hj
            rw [houter d hdU j hje] at hrel
            exact Bool.false_ne_true hrel
          rw [hfe]
          simp
        constructor
        · rintro ⟨h1, h2⟩
          rw [hB0] at h2
          omega
        · rintro ⟨hmem, _⟩
          exact absurd (Finset.mem_sdiff.mp hmem).1 hdU
    · have hB0 : ((current.flatMap (dominatedMOf rel n)).count d : Int) = 0 := by
        rw [hcnt d]
        have hfe : current.toFinset.filter (fun j => d < n ∧ d ≠ j ∧ rel j d = true) = ∅ := by
          rw [Finset.filter_eq_empty_iff]
          rintro j hj ⟨hlt, _, _⟩
          exact hdn hlt
        rw [hfe]
        simp
      constructor
      · rintro ⟨h1, h2⟩
        rw [hB0] at h2
        omega
      · rintro ⟨hmem, _⟩
        have := hU (Finset.mem_sdiff.mp hmem).1
        exact absurd (Finset.mem_range.mp this) hdn
  · exact decFold_snd_nodup _ _ _ List.nodup_nil (by intro x hx; simp at hx)

end NSGA

namespace NSGA

theorem peelAux_spec (rel : Nat → Nat → Bool) (n : Nat)
    (htrans : ∀ a b c, a < n → b < n → c < n →
      rel a b = true → rel b c = true → rel a c = true)
    (hirr : ∀ a, rel a a = false) :
    ∀ (fuel : Nat) (U : Finset Nat) (dc : Nat → Int) (current : List Nat)
      (acc : List (List Nat)),
      U ⊆ Finset.range n →
      current.Nodup →
      (∀ i, i ∈ current ↔ i ∈ U ∧ ∀ j ∈ U, rel j i = false) →
      (∀ i ∈ U, dc i = ((U.filter (fun j => rel j i = true ∧ j ≠ i)).card : Int)) →
      (∀ d, d ∉ U → ∀ j ∈ U, rel j d = false) →
      (U \ current.toFinset).card + 1 ≤ fuel →
      ∃ F, peelAux (dominatedMOf rel n) fuel dc current acc = acc ++ F ∧
        F.flatten.Nodup ∧
        F.flatten.toFinset = U \ current.toFinset ∧
        (∀ fr ∈ F, fr ≠ []) := by
  intro fuel
  induction fuel with
  | zero =>
    intro U dc current acc _ _ _ _ _ hfuel
    omega
  | succ fuel ih =>
    intro U dc current acc hU hcurnd hcur hdc houter hfuel
    by_cases hemp : current.isEmpty
    · have hcur_nil : current = [] := List.isEmpty_iff.mp hemp
      subst hcur_nil
      have hUempty : U = ∅ := by
        by_contra hne
        obtain ⟨m, hm, hmin⟩ := exists_undominated rel n htrans hirr U.card U rfl hU
          (Finset.nonempty_iff_ne_empty.mpr hne)
        have : m ∈ ([] : List Nat) := (hcur m).mpr ⟨hm, hmin⟩
        simp at this
      refine ⟨[], by simp [peelAux], by simp, by simp [hUempty], by simp⟩
    · obtain ⟨hfst, hmem, hnodup⟩ :=
        processFront_spec rel n U dc current hirr hU houter hcurnd hcur hdc
      have hU'sub : U \ current.toFinset ⊆ Finset.range n :=
        fun x hx => hU (Finset.mem_sdiff.mp hx).1
      have houter' : ∀ d, d ∉ U \ current.toFinset →
          ∀ j ∈ U \ current.toFinset, rel j d = false := by
        intro d hd j hj
        by_cases hdU : d ∈ U
        · have hdcur : d ∈ current.toFinset := by
            by_contra hc
            exact hd (Finset.mem_sdiff.mpr ⟨hdU, hc⟩)
          exact ((hcur d).mp (List.mem_toFinset.mp hdcur)).2 j (Finset.mem_sdiff.mp hj).1
        · exact houter d hdU j (Finset.mem_sdiff.mp hj).1
      by_cases hnextemp : (processFront (dominatedMOf rel n) current dc).2.isEmpty
      · have hnext_nil : (processFront (dominatedMOf rel n) current dc).2 = [] :=
          List.isEmpty_iff.mp hnextemp
        have hU'empty : U \ current.toFinset = ∅ := by
          by_contra hne
          obtain ⟨m, hm, hmin⟩ := exists_undominated rel n htrans hirr
            (U \ current.toFinset).card (U \ current.toFinset) rfl hU'sub
            (Finset.nonempty_iff_ne_empty.mpr hne)
          have : m ∈ (processFront (dominatedMOf rel n) current dc).2 :=
            (hmem m).mpr ⟨hm, hmin⟩
          rw [hnext_nil] at this
          simp at this
        have hres : peelAux (dominatedMOf rel n) (fuel + 1) dc current acc =
            peelAux (dominatedMOf rel n) fuel
              (processFront (dominatedMOf rel n) current dc).1
              (processFront (dominatedMOf rel n) current dc).2 acc := by
          simp [peelAux, hemp, hnextemp]
        have hres2 : peelAux (dominatedMOf rel n) fuel
            (processFront (dominatedMOf rel n) current dc).1
            (processFront (dominatedMOf rel n) current dc).2 acc = acc := by
          cases fuel with
          | zero => rfl
          | succ f => simp [peelAux, hnextemp]
        exact ⟨[], by rw [hres, hres2]; simp, by simp, by simp [hU'empty], by simp⟩
      · have hnextne : (processFront (dominatedMOf rel n) current dc).2 ≠ [] := by
          intro h
          rw [h] at hnextemp
          simp at hnextemp
        have hnsubU' : (processFront (dominatedMOf rel n) current dc).2.toFinset ⊆
            U \ current.toFinset :=
          fun x hx => ((hmem x).mp (List.mem_toFinset.mp hx)).1
        have hfuel' : ((U \ current.toFinset) \
            (processFront (dominatedMOf rel n) current dc).2.toFinset).card + 1 ≤ fuel := by
          have hnne : (processFront (dominatedMOf rel n) current dc).2.toFinset.Nonempty := by
            obtain ⟨x, hx⟩ := List.exists_mem_of_ne_nil _ hnextne
            exact ⟨x, List.mem_toFinset.mpr hx⟩
          have h1 : ((U \ current.toFinset) \
              (processFront (dominatedMOf rel n) current dc).2.toFinset).card <
              (U \ current.toFinset).card :=
            Finset.card_lt_card (Finset.sdiff_ssubset hnsubU' hnne)
          omega
        obtain ⟨F', hF'eq, hF'nodup, hF'fin, hF'ne⟩ :=
          ih (U \ current.toFinset) (processFront (dominatedMOf rel n) current dc).1
            (processFront (dominatedMOf rel n) current dc).2
            (acc ++ [(processFront (dominatedMOf rel n) current dc).2])
            hU'sub hnodup hmem hfst houter' hfuel'
        refine ⟨(processFront (dominatedMOf rel n) current dc).2 :: F', ?_, ?_, ?_, ?_⟩
        · have hstep : peelAux (dominatedMOf rel n) (fuel + 1) dc current acc =
              peelAux (dominatedMOf rel n) fuel
                (processFront (dominatedMOf rel n) current dc).1
                (processFront (dominatedMOf rel n) current dc).2
                (acc ++ [(processFront (dominatedMOf rel n) current dc).2]) := by
            simp [peelAux, hemp, hnextemp]
          rw [hstep, hF'eq, List.append_assoc]
          rfl
        · rw [List.flatten_cons, List.nodup_append]
          refine ⟨hnodup, hF'nodup, ?_⟩
          intro x hx hx'
          have hxF : x ∈ F'.flatten.toFinset := List.mem_toFinset.mpr hx'
          rw [hF'fin] at hxF
          exact (Finset.mem_sdiff.mp hxF).2 (List.mem_toFinset.mpr hx)
        · rw [List.flatten_cons, List.toFinset_append, hF'fin]
          ext x
          simp only [Finset.mem_union, Finset.mem_sdiff, List.mem_toFinset]
          constructor
          · rintro (h | ⟨⟨h1, h2⟩, _⟩)
            · have hh := Finset.mem_sdiff.mp (hnsubU' (List.mem_toFinset.mpr h))
              exact ⟨hh.1, fun hc => hh.2 (List.mem_toFinset.mpr hc)⟩
            · exact ⟨h1, h2⟩
          · rintro ⟨h1, h2⟩
            by_cases hx : x ∈ (processFront (dominatedMOf rel n) current dc).2
            · exact Or.inl hx
            · exact Or.inr ⟨⟨h1, h2⟩, hx⟩
        · intro fr hfr
          rcases List.mem_cons.mp hfr with h | h
          · rw [h]
            exact hnextne
          · exact hF'ne fr h

end NSGA

namespace NSGA

theorem domVals_nil_right (v : List ℚ) (bt : Bool) : domVals v [] bt = bt := by
  cases v <;> rfl

theorem relOf_big {S : Type} [Inhabited S] (pop : List (Ind S)) (d j : Nat)
    (hd : pop.length ≤ d) : relOf pop j d = false := by
  unfold relOf Dominates
  rw [List.getD_eq_default _ _ hd]
  exact domVals_nil_right _ false

theorem relOf_irrefl {S : Type} [Inhabited S] (pop : List (Ind S)) (a : Nat) :
    relOf pop a a = false :=
  dominates_irrefl _

theorem relOf_trans {S : Type} [Inhabited S] (pop : List (Ind S)) (m : Nat)
    (huni : ∀ x ∈ pop, x.value.length = m) :
    ∀ a b c, a < pop.length → b < pop.length → c < pop.length →
      relOf pop a b = true → relOf pop b c = true → relOf pop a c = true := by
  have hlen : ∀ i, i < pop.length → (pop.getD i default).value.length = m := by
    intro i hi
    rw [List.getD_eq_getElem pop default hi]
    exact huni _ (List.getElem_mem hi)
  intro a b c ha hb hc h1 h2
  unfold relOf Dominates at h1 h2 ⊢
  exact domVals_trans _ _ _ (by rw [hlen a ha, hlen b hb]) (by rw [hlen b hb, hlen c hc]) h1 h2

theorem initDC_eq_zero_iff (rel : Nat → Nat → Bool) (hirr : ∀ a, rel a a = false)
    (n i : Nat) : (initDC rel n i = 0) ↔ ∀ j, j < n → rel j i = false := by
  unfold initDC
  rw [Int.natCast_eq_zero, List.length_eq_zero, List.filter_eq_nil_iff]
  constructor
  · intro h j hj
    have hni := h j (List.mem_range.mpr hj)
    simp only [Bool.and_eq_true, bne_iff_ne, not_and] at hni
    by_cases hji : j = i
    · subst hji
      exact hirr j
    · cases hc : rel j i
      · rfl
      · exact absurd hc (hni hji)
  · intro h j hj
    simp only [Bool.and_eq_true, bne_iff_ne, not_and, Bool.not_eq_true]
    intro _
    exact h j (List.mem_range.mp hj)

theorem initDC_card (rel : Nat → Nat → Bool) (n i : Nat) :
    initDC rel n i = (((Finset.range n).filter (fun j => rel j i = true ∧ j ≠ i)).card : Int) := by
  unfold initDC
  congr 1
  have heq : ((List.range n).filter (fun j => j != i && rel j i)) =
      ((List.range n).filter (fun j => decide (rel j i = true ∧ j ≠ i))) := by
    apply List.filter_congr
    intro j _
    by_cases hji : j = i
    · subst hji
      simp
    · by_cases hr : rel j i = true
      · simp [hji, hr]
      · have hr' : rel j i = false := by
          cases hc : rel j i
          · rfl
          · exact absurd hc hr
        simp [hji, hr']
  rw [heq, length_filter_eq_card _ (List.nodup_range n)]
  congr 1
  rw [toFinset_list_range]

theorem ndSortIdx_spec {S : Type} [Inhabited S] (pop : List (Ind S)) (m : Nat)
    (huni : ∀ x ∈ pop, x.value.length = m) :
    ∃ F, ndSortIdx pop =
        ((List.range pop.length).filter
          (fun i => initDC (relOf pop) pop.length i == 0)) :: F ∧
      (ndSortIdx pop).flatten.Nodup ∧
      (ndSortIdx pop).flatten.toFinset = Finset.range pop.length := by
  classical
  set rel := relOf pop with hrel
  set n := pop.length with hn
  set f0 := (List.range n).filter (fun i => initDC rel n i == 0) with hf0
  have hirr : ∀ a, rel a a = false := fun a => relOf_irrefl pop a
  have htrans := relOf_trans pop m huni
  have hf0nd : f0.Nodup := List.Nodup.filter _ (List.nodup_range n)
  have hf0sub : f0.toFinset ⊆ Finset.range n := by
    intro x hx
    have := List.mem_toFinset.mp hx
    rw [hf0, List.mem_filter] at this
    exact Finset.mem_range.mpr (List.mem_range.mp this.1)
  have hcur : ∀ i, i ∈ f0 ↔ i ∈ Finset.range n ∧ ∀ j ∈ Finset.range n, rel j i = false := by
    intro i
    rw [hf0, List.mem_filter]
    constructor
    · rintro ⟨h1, h2⟩
      simp only [beq_iff_eq] at h2
      refine ⟨Finset.mem_range.mpr (List.mem_range.mp h1), ?_⟩
      intro j hj
      exact (initDC_eq_zero_iff rel hirr n i).mp h2 j (Finset.mem_range.mp hj)
    · rintro ⟨h1, h2⟩
      refine ⟨List.mem_range.mpr (Finset.mem_range.mp h1), ?_⟩
      simp only [beq_iff_eq]
      exact (initDC_eq_zero_iff rel hirr n i).mpr
        (fun j hj => h2 j (Finset.mem_range.mpr hj))
  have hdc : ∀ i ∈ Finset.range n, initDC rel n i =
      (((Finset.range n).filter (fun j => rel j i = true ∧ j ≠ i)).card : Int) :=
    fun i _ => initDC_card rel n i
  have houter : ∀ d, d ∉ Finset.range n → ∀ j ∈ Finset.range n, rel j d = false := by
    intro d hd j _
    exact relOf_big pop d j
      (Nat.le_of_not_lt (fun hc => hd (Finset.mem_range.mpr hc)))
  have hfuel : (Finset.range n \ f0.toFinset).card + 1 ≤ n + 1 := by
    have := Finset.card_le_card (Finset.sdiff_subset (s := Finset.range n) (t := f0.toFinset))
    rw [Finset.card_range] at this
    omega
  obtain ⟨F, hFeq, hFnodup, hFfin, _⟩ :=
    peelAux_spec rel n htrans hirr (n + 1) (Finset.range n) (initDC rel n) f0 [f0]
      (le_refl _) hf0nd hcur hdc houter hfuel
  have hnds : ndSortIdx pop = f0 :: F := by
    rw [ndSortIdx]
    rw [← hrel, ← hn, ← hf0]
    rw [hFeq]
    rfl
  refine ⟨F, by rw [hnds], ?_, ?_⟩
  · rw [hnds, List.flatten_cons, List.nodup_append]
    refine ⟨hf0nd, hFnodup, ?_⟩
    intro x hx hx'
    have hxF : x ∈ F.flatten.toFinset := List.mem_toFinset.mpr hx'
    rw [hFfin] at hxF
    exact (Finset.mem_sdiff.mp hxF).2 (List.mem_toFinset.mpr hx)
  · rw [hnds, List.flatten_cons, List.toFinset_append, hFfin]
    exact Finset.union_sdiff_of_subset hf0sub

end NSGA

namespace NSGA

theorem NonDominatedSort_sumlen {S : Type} [Inhabited S] (pop : List (Ind S)) (m : Nat)
    (huni : ∀ x ∈ pop, x.value.length = m) :
    ((NonDominatedSort pop).map List.length).sum = pop.length := by
  obtain ⟨F, hhead, hnodup, hfin⟩ := ndSortIdx_spec pop m huni
  have hmaps : (NonDominatedSort pop).map List.length = (ndSortIdx pop).map List.length := by
    unfold NonDominatedSort
    rw [List.map_map]
    have hfun : (List.length ∘ fun fr : Nat × List Nat =>
        fr.2.map (fun i => { pop.getD i default with rank := fr.1 })) =
        (List.length ∘ (Prod.snd : Nat × List Nat → List Nat)) := by
      funext fr
      simp
    rw [hfun, ← List.map_map, List.enum_map_snd]
  have hlen : (ndSortIdx pop).flatten.length = pop.length := by
    have hcard := List.toFinset_card_of_nodup hnodup
    rw [hfin, Finset.card_range] at hcard
    omega
  rw [hmaps, ← List.length_flatten, hlen]

theorem NonDominatedSort_shape {S : Type} [Inhabited S] (pop : List (Ind S))
    (fr : List (Ind S)) (x : Ind S)
    (hfr : fr ∈ NonDominatedSort pop) (hx : x ∈ fr) :
    ∃ k idxs i, (k, idxs) ∈ (ndSortIdx pop).enum ∧ i ∈ idxs ∧
      x = { pop.getD i default with rank := k } := by
  unfold NonDominatedSort at hfr
  rcases List.mem_map.mp hfr with ⟨p, hp, hpe⟩
  subst hpe
  rcases List.mem_map.mp hx with ⟨i, hi, hie⟩
  exact ⟨p.1, p.2, i, by rwa [Prod.mk.eta], hi, hie.symm⟩

theorem ndSortIdx_mem_lt {S : Type} [Inhabited S] (pop : List (Ind S)) (m : Nat)
    (huni : ∀ x ∈ pop, x.value.length = m) (k : Nat) (idxs : List Nat) (i : Nat)
    (hk : (k, idxs) ∈ (ndSortIdx pop).enum) (hi : i ∈ idxs) : i < pop.length := by
  obtain ⟨F, hhead, hnodup, hfin⟩ := ndSortIdx_spec pop m huni
  have hidxs : idxs ∈ ndSortIdx pop := by
    have := List.mem_enum_iff_getElem?.mp hk
    exact List.getElem?_mem this
  have hflat : i ∈ (ndSortIdx pop).flatten := List.mem_flatten.mpr ⟨idxs, hidxs, hi⟩
  have := List.mem_toFinset.mpr hflat
  rw [hfin] at this
  exact Finset.mem_range.mp this

theorem mem_f0_undominated {S : Type} [Inhabited S] (pop : List (Ind S)) (i : Nat)
    (hi : i ∈ (List.range pop.length).filter
      (fun i => initDC (relOf pop) pop.length i == 0)) :
    ∀ j, j < pop.length → relOf pop j i = false := by
  rw [List.mem_filter] at hi
  have h2 := hi.2
  simp only [beq_iff_eq] at h2
  exact (initDC_eq_zero_iff (relOf pop) (relOf_irrefl pop) pop.length i).mp h2

theorem NonDominatedSort_rank0 {S : Type} [Inhabited S] (pop : List (Ind S)) (m : Nat)
    (huni : ∀ x ∈ pop, x.value.length = m) (fr : List (Ind S)) (x : Ind S)
    (hfr : fr ∈ NonDominatedSort pop) (hx : x ∈ fr) (hrk : x.rank = 0) :
    ∀ j, j < pop.length → domVals (pop.getD j default).value x.value false = false := by
  obtain ⟨k, idxs, i, hk, hi, hxe⟩ := NonDominatedSort_shape pop fr x hfr hx
  have hkr : k = 0 := by
    rw [hxe] at hrk
    exact hrk
  subst hkr
  obtain ⟨F, hhead, _, _⟩ := ndSortIdx_spec pop m huni
  have hidxs : idxs = (List.range pop.length).filter
      (fun i => initDC (relOf pop) pop.length i == 0) := by
    have hget := List.mem_enum_iff_getElem?.mp hk
    rw [hhead] at hget
    simp at hget
    exact hget.symm
  rw [hidxs] at hi
  have hund := mem_f0_undominated pop i hi
  intro j hj
  have := hund j hj
  unfold relOf Dominates at this
  rw [hxe]
  exact this

theorem NonDominatedSort_value {S : Type} [Inhabited S] (pop : List (Ind S))
    (fr : List (Ind S)) (x : Ind S) (m : Nat)
    (huni : ∀ x ∈ pop, x.value.length = m)
    (hfr : fr ∈ NonDominatedSort pop) (hx : x ∈ fr) :
    ∃ i, i < pop.length ∧ x.value = (pop.getD i default).value := by
  obtain ⟨k, idxs, i, hk, hi, hxe⟩ := NonDominatedSort_shape pop fr x hfr hx
  exact ⟨i, ndSortIdx_mem_lt pop m huni k idxs i hk hi, by rw [hxe]⟩

end NSGA

namespace NSGA

theorem setBoundaryTop_length {S : Type} (l : List (Ind S)) :
    (setBoundaryTop l).length = l.length := by
  unfold setBoundaryTop
  rw [List.length_map, List.enum_length]

theorem setBoundaryTop_mem {S : Type} (l : List (Ind S)) (x : Ind S)
    (hx : x ∈ setBoundaryTop l) : ∃ y ∈ l, x.value = y.value ∧ x.rank = y.rank := by
  unfold setBoundaryTop at hx
  rcases List.mem_map.mp hx with ⟨p, hp, hpe⟩
  subst hpe
  refine ⟨p.2, List.snd_mem_of_mem_enum hp, ?_⟩
  by_cases hc : p.1 = 0 ∨ p.1 = l.length - 1
  · rw [if_pos hc]
    exact ⟨rfl, rfl⟩
  · rw [if_neg hc]
    exact ⟨rfl, rfl⟩

theorem updateMiddles_length {S : Type} [Inhabited S] (l : List (Ind S)) (mIdx : Nat)
    (rng : ℚ) : (updateMiddles l mIdx rng).length = l.length := by
  unfold updateMiddles
  rw [List.length_map, List.enum_length]

theorem updateMiddles_mem {S : Type} [Inhabited S] (l : List (Ind S)) (mIdx : Nat)
    (rng : ℚ) (x : Ind S) (hx : x ∈ updateMiddles l mIdx rng) :
    ∃ y ∈ l, x.value = y.value ∧ x.rank = y.rank := by
  unfold updateMiddles at hx
  rcases List.mem_map.mp hx with ⟨p, hp, hpe⟩
  subst hpe
  refine ⟨p.2, List.snd_mem_of_mem_enum hp, ?_⟩
  by_cases hc : 0 < p.1 ∧ p.1 < l.length - 1
  · rw [if_pos hc]
    exact ⟨rfl, rfl⟩
  · rw [if_neg hc]
    exact ⟨rfl, rfl⟩

theorem sortByObj_length {S : Type} (mIdx : Nat) (l : List (Ind S)) :
    (sortByObj mIdx l).length = l.length :=
  List.length_mergeSort l

theorem sortByObj_mem {S : Type} (mIdx : Nat) (l : List (Ind S)) (x : Ind S)
    (hx : x ∈ sortByObj mIdx l) : x ∈ l :=
  List.mem_mergeSort.mp hx

theorem sortByDistDesc_length {S : Type} (l : List (Ind S)) :
    (sortByDistDesc l).length = l.length :=
  List.length_mergeSort l

theorem sortByDistDesc_mem {S : Type} (l : List (Ind S)) (x : Ind S)
    (hx : x ∈ sortByDistDesc l) : x ∈ l :=
  List.mem_mergeSort.mp hx

theorem cdStep_length {S : Type} [Inhabited S] (fr : List (Ind S)) (mIdx : Nat) :
    (cdStep fr mIdx).length = fr.length := by
  unfold cdStep
  by_cases hc : ((setBoundaryTop (sortByObj mIdx fr)).getLastD default).value.getD mIdx 0 -
      ((setBoundaryTop (sortByObj mIdx fr)).headD default).value.getD mIdx 0 = 0
  · rw [if_pos hc, setBoundaryTop_length, sortByObj_length]
  · rw [if_neg hc, updateMiddles_length, setBoundaryTop_length, sortByObj_length]

theorem cdStep_mem {S : Type} [Inhabited S] (fr : List (Ind S)) (mIdx : Nat) (x : Ind S)
    (hx : x ∈ cdStep fr mIdx) : ∃ y ∈ fr, x.value = y.value ∧ x.rank = y.rank := by
  unfold cdStep at hx
  by_cases hc : ((setBoundaryTop (sortByObj mIdx fr)).getLastD default).value.getD mIdx 0 -
      ((setBoundaryTop (sortByObj mIdx fr)).headD default).value.getD mIdx 0 = 0
  · rw [if_pos hc] at hx
    obtain ⟨y, hy, he⟩ := setBoundaryTop_mem _ x hx
    exact ⟨y, sortByObj_mem mIdx fr y hy, he⟩
  · rw [if_neg hc] at hx
    obtain ⟨y, hy, he1, he2⟩ := updateMiddles_mem _ mIdx _ x hx
    obtain ⟨z, hz, hf1, hf2⟩ := setBoundaryTop_mem _ y hy
    exact ⟨z, sortByObj_mem mIdx fr z hz, he1.trans hf1, he2.trans hf2⟩

theorem crowdFold_length {S : Type} [Inhabited S] :
    ∀ (ms : List Nat) (fr : List (Ind S)),
      (ms.foldl cdStep fr).length = fr.length := by
  intro ms
  induction ms with
  | nil => intro fr; rfl
  | cons mi rest ih =>
    intro fr
    rw [List.foldl_cons, ih, cdStep_length]

theorem crowdFold_mem {S : Type} [Inhabited S] :
    ∀ (ms : List Nat) (fr : List (Ind S)) (x : Ind S),
      x ∈ ms.foldl cdStep fr → ∃ y ∈ fr, x.value = y.value ∧ x.rank = y.rank := by
  intro ms
  induction ms with
  | nil => intro fr x hx; exact ⟨x, hx, rfl, rfl⟩
  | cons mi rest ih =>
    intro fr x hx
    rw [List.foldl_cons] at hx
    obtain ⟨y, hy, he1, he2⟩ := ih (cdStep fr mi) x hx
    obtain ⟨z, hz, hf1, hf2⟩ := cdStep_mem fr mi y hy
    exact ⟨z, hz, he1.trans hf1, he2.trans hf2⟩

theorem CrowdingDistance_length {S : Type} [Inhabited S] (f : List (Ind S)) :
    (CrowdingDistance f).length = f.length := by
  unfold CrowdingDistance
  by_cases hc : f.length ≤ 2
  · rw [if_pos hc, List.length_map]
  · rw [if_neg hc, crowdFold_length, List.length_map]

theorem CrowdingDistance_mem {S : Type} [Inhabited S] (f : List (Ind S)) (x : Ind S)
    (hx : x ∈ CrowdingDistance f) : ∃ y ∈ f, x.value = y.value ∧ x.rank = y.rank := by
  unfold CrowdingDistance at hx
  by_cases hc : f.length ≤ 2
  · rw [if_pos hc] at hx
    rcases List.mem_map.mp hx with ⟨y, hy, hye⟩
    exact ⟨y, hy, by rw [← hye]; exact ⟨rfl, rfl⟩⟩
  · rw [if_neg hc] at hx
    obtain ⟨y, hy, he1, he2⟩ := crowdFold_mem _ _ x hx
    rcases List.mem_map.mp hy with ⟨z, hz, hze⟩
    refine ⟨z, hz, ?_, ?_⟩
    · rw [he1, ← hze]
    · rw [he2, ← hze]

theorem buildNext_length {S : Type} [Inhabited S] (popSize : Nat) :
    ∀ (fronts : List (List (Ind S))) (acc : List (Ind S)),
      acc.length ≤ popSize →
      popSize ≤ acc.length + ((fronts.map List.length).sum) →
      (buildNext popSize fronts acc).length = popSize := by
  intro fronts
  induction fronts with
  | nil =>
    intro acc h1 h2
    simp only [buildNext]
    simp at h2
    omega
  | cons f rest ih =>
    intro acc h1 h2
    simp only [buildNext]
    by_cases hfit : acc.length + f.length ≤ popSize
    · rw [if_pos hfit]
      apply ih
      · rw [List.length_append, CrowdingDistance_length]
        exact hfit
      · rw [List.length_append, CrowdingDistance_length]
        simp only [List.map_cons, List.sum_cons] at h2
        omega
    · rw [if_neg hfit]
      by_cases hlt : acc.length < popSize
      · rw [if_pos hlt, List.length_append, List.length_take, sortByDistDesc_length,
          CrowdingDistance_length]
        omega
      · rw [if_neg hlt]
        omega

theorem buildNext_mem {S : Type} [Inhabited S] (popSize : Nat) :
    ∀ (fronts : List (List (Ind S))) (acc : List (Ind S)) (x : Ind S),
      x ∈ buildNext popSize fronts acc →
      x ∈ acc ∨ ∃ fr ∈ fronts, ∃ y ∈ fr, x.value = y.value ∧ x.rank = y.rank := by
  intro fronts
  induction fronts with
  | nil =>
    intro acc x hx
    exact Or.inl hx
  | cons f rest ih =>
    intro acc x hx
    simp only [buildNext] at hx
    by_cases hfit : acc.length + f.length ≤ popSize
    · rw [if_pos hfit] at hx
      rcases ih _ x hx with hacc | ⟨fr, hfr, y, hy, he⟩
      · rcases List.mem_append.mp hacc with h | h
        · exact Or.inl h
        · obtain ⟨y, hy, he⟩ := CrowdingDistance_mem f x h
          exact Or.inr ⟨f, List.mem_cons_self _ _, y, hy, he⟩
      · exact Or.inr ⟨fr, List.mem_cons_of_mem _ hfr, y, hy, he⟩
    · rw [if_neg hfit] at hx
      by_cases hlt : acc.length < popSize
      · rw [if_pos hlt] at hx
        rcases List.mem_append.mp hx with h | h
        · exact Or.inl h
        · have hmem := List.mem_of_mem_take h
          have hmem2 := sortByDistDesc_mem _ x hmem
          obtain ⟨y, hy, he⟩ := CrowdingDistance_mem f x hmem2
          exact Or.inr ⟨f, List.mem_cons_self _ _, y, hy, he⟩
      · rw [if_neg hlt] at hx
        exact Or.inl hx

end NSGA

namespace NSGA

theorem TournamentSelect_mem {S : Type} [Inhabited S] (population : List (Ind S)) (r : RNG)
    (hne : population.length ≠ 0) :
    (TournamentSelect population r).1 ∈ population := by
  have hmem : ∀ k, population.getD (k % population.length) default ∈ population := by
    intro k
    have hlt : k % population.length < population.length :=
      Nat.mod_lt _ (Nat.pos_of_ne_zero hne)
    rw [List.getD_eq_getElem population default hlt]
    exact List.getElem_mem hlt
  unfold TournamentSelect RNG.intn
  dsimp only
  split
  · exact hmem _
  · exact hmem _

theorem Evaluate_length {S : Type} (p : Prob S) (x : S) (v : List ℚ)
    (h : Evaluate p x = some v) : v.length = p.objectives.length := by
  unfold Evaluate at h
  by_cases hc : (p.constraints.all fun c => c x) = true
  · rw [if_pos hc] at h
    cases h
    rw [List.length_map]
  · rw [if_neg hc] at h
    cases h

theorem offspringLoop_spec {S : Type} [Inhabited S] (ops : SolutionOps S) (p : Prob S)
    (cfg : Cfg) (population : List (Ind S)) (m : Nat)
    (hobj : p.objectives.length = m)
    (hpar : ∀ x ∈ population, x.value.length = m)
    (hplen : population.length = cfg.popSize) :
    ∀ (i : Nat) (r : RNG),
      ((offspringLoop ops p cfg population i r).1.length = cfg.popSize - i) ∧
      (∀ x ∈ (offspringLoop ops p cfg population i r).1, x.value.length = m) := by
  suffices h : ∀ (k i : Nat) (r : RNG), cfg.popSize - i = k →
      ((offspringLoop ops p cfg population i r).1.length = cfg.popSize - i) ∧
      (∀ x ∈ (offspringLoop ops p cfg population i r).1, x.value.length = m) by
    intro i r
    exact h (cfg.popSize - i) i r rfl
  intro k
  induction k using Nat.strong_induction_on with
  | _ k ih =>
    intro i r hk
    by_cases hi : i < cfg.popSize
    · have hpne : population.length ≠ 0 := by omega
      have hval : ∀ (t : Ind S × RNG), t.1 ∈ population → t.1.value.length = m :=
        fun t ht => hpar t.1 ht
      rw [offspringLoop, dif_pos hi]
      dsimp only
      by_cases hlast : cfg.popSize ≤ i + 1
      · rw [if_pos hlast]
        constructor
        · simp only [List.length_cons, List.length_nil]
          omega
        · intro x hx
          simp only [List.mem_singleton] at hx
          subst hx
          cases hev : Evaluate p (ops.mutate (ops.crossover
              (TournamentSelect population r).1.solution
              (TournamentSelect population (TournamentSelect population r).2).1.solution
              cfg.crossoverRate
              (TournamentSelect population (TournamentSelect population r).2).2).1
              cfg.mutationRate (ops.crossover
              (TournamentSelect population r).1.solution
              (TournamentSelect population (TournamentSelect population r).2).1.solution
              cfg.crossoverRate
              (TournamentSelect population (TournamentSelect population r).2).2).2.2).1 with
          | none =>
            exact hpar (TournamentSelect population r).1
              (TournamentSelect_mem population r hpne)
          | some v =>
            have := Evaluate_length p _ v hev
            rw [hobj] at this
            exact this
      · rw [if_neg hlast]
        have hrec := fun (r' : RNG) => ih (cfg.popSize - (i + 2)) (by omega) (i + 2) r' rfl
        constructor
        · simp only [List.length_cons]
          rw [(hrec _).1]
          omega
        · intro x hx
          rcases List.mem_cons.mp hx with h1 | hx
          · subst h1
            cases hev : Evaluate p (ops.mutate (ops.crossover
                (TournamentSelect population r).1.solution
                (TournamentSelect population (TournamentSelect population r).2).1.solution
                cfg.crossoverRate
                (TournamentSelect population (TournamentSelect population r).2).2).1
                cfg.mutationRate (ops.crossover
                (TournamentSelect population r).1.solution
                (TournamentSelect population (TournamentSelect population r).2).1.solution
                cfg.crossoverRate
                (TournamentSelect population (TournamentSelect population r).2).2).2.2).1 with
            | none =>
              exact hpar (TournamentSelect population r).1
                (TournamentSelect_mem population r hpne)
            | some v =>
              have := Evaluate_length p _ v hev
              rw [hobj] at this
              exact this
          · rcases List.mem_cons.mp hx with h2 | hx
            · subst h2
              cases hev : Evaluate p (ops.mutate (ops.crossover
                  (TournamentSelect population r).1.solution
                  (TournamentSelect population (TournamentSelect population r).2).1.solution
                  cfg.crossoverRate
                  (TournamentSelect population (TournamentSelect population r).2).2).2.1
                  cfg.mutationRate (ops.mutate (ops.crossover
                  (TournamentSelect population r).1.solution
                  (TournamentSelect population (TournamentSelect population r).2).1.solution
                  cfg.crossoverRate
                  (TournamentSelect population (TournamentSelect population r).2).2).1
                  cfg.mutationRate (ops.crossover
                  (TournamentSelect population r).1.solution
                  (TournamentSelect population (TournamentSelect population r).2).1.solution
                  cfg.crossoverRate
                  (TournamentSelect population (TournamentSelect population r).2).2).2.2).2).1 with
              | none =>
                exact hpar (TournamentSelect population (TournamentSelect population r).2).1
                  (TournamentSelect_mem population (TournamentSelect population r).2 hpne)
              | some v =>
                have := Evaluate_length p _ v hev
                rw [hobj] at this
                exact this
            · exact (hrec _).2 x hx
    · rw [offspringLoop, dif_neg hi]
      exact ⟨by simp; omega, by simp⟩

end NSGA

namespace NSGA

theorem generation_spec {S : Type} [Inhabited S] (ops : SolutionOps S) (p : Prob S)
    (cfg : Cfg) (population : List (Ind S)) (r : RNG) (m : Nat)
    (hobj : p.objectives.length = m)
    (hplen : population.length = cfg.popSize)
    (hpar : ∀ x ∈ population, x.value.length = m) :
    ((generation ops p cfg population r).1.length = cfg.popSize) ∧
    (∀ x ∈ (generation ops p cfg population r).1, x.value.length = m) ∧
    (∀ a ∈ (generation ops p cfg population r).1,
      ∀ b ∈ (generation ops p cfg population r).1,
        a.rank = 0 → b.rank = 0 → Dominates a b = false) := by
  have hoff := offspringLoop_spec ops p cfg population m hobj hpar hplen 0 r
  have hcuni : ∀ x ∈ population ++ (offspringLoop ops p cfg population 0 r).1,
      x.value.length = m := by
    intro x hx
    rcases List.mem_append.mp hx with h | h
    · exact hpar x h
    · exact hoff.2 x h
  have hclen : (population ++ (offspringLoop ops p cfg population 0 r).1).length =
      cfg.popSize + (cfg.popSize - 0) := by
    rw [List.length_append, hplen, hoff.1]
  have hsum := NonDominatedSort_sumlen
    (population ++ (offspringLoop ops p cfg population 0 r).1) m hcuni
  have hout : (generation ops p cfg population r).1 =
      buildNext cfg.popSize
        (NonDominatedSort (population ++ (offspringLoop ops p cfg population 0 r).1)) [] :=
    rfl
  refine ⟨?_, ?_, ?_⟩
  · rw [hout]
    apply buildNext_length
    · simp
    · rw [List.length_nil, hsum, hclen]
      omega
  · intro x hx
    rw [hout] at hx
    rcases buildNext_mem _ _ _ x hx with h | ⟨fr, hfr, y, hy, he1, _⟩
    · simp at h
    · obtain ⟨i, hi, hv⟩ := NonDominatedSort_value _ fr y m hcuni hfr hy
      rw [he1, hv]
      have hmem : ((population ++ (offspringLoop ops p cfg population 0 r).1).getD i default) ∈
          population ++ (offspringLoop ops p cfg population 0 r).1 := by
        rw [List.getD_eq_getElem _ default hi]
        exact List.getElem_mem hi
      exact hcuni _ hmem
  · intro a ha b hb hra hrb
    rw [hout] at ha hb
    rcases buildNext_mem _ _ _ a ha with h | ⟨fra, hfra, ya, hya, hea1, hea2⟩
    · simp at h
    rcases buildNext_mem _ _ _ b hb with h | ⟨frb, hfrb, yb, hyb, heb1, heb2⟩
    · simp at h
    have hybr : yb.rank = 0 := by rw [← heb2, hrb]
    have hund := NonDominatedSort_rank0 _ m hcuni frb yb hfrb hyb hybr
    obtain ⟨i, hi, hv⟩ := NonDominatedSort_value _ fra ya m hcuni hfra hya
    have hx := hund i hi
    unfold Dominates
    rw [hea1, hv, heb1]
    exact hx

theorem genLoop_spec {S : Type} [Inhabited S] (ops : SolutionOps S) (p : Prob S)
    (cfg : Cfg) (m : Nat) (hobj : p.objectives.length = m) :
    ∀ (g : Nat) (pop : List (Ind S)) (r : RNG),
      pop.length = cfg.popSize → (∀ x ∈ pop, x.value.length = m) → 1 ≤ g →
      ((genLoop ops p cfg g pop r).1.length = cfg.popSize ∧
       ∀ a ∈ (genLoop ops p cfg g pop r).1, ∀ b ∈ (genLoop ops p cfg g pop r).1,
         a.rank = 0 → b.rank = 0 → Dominates a b = false) := by
  intro g
  induction g with
  | zero =>
    intro pop r _ _ hg
    omega
  | succ g ih =>
    intro pop r hlen huni _
    have hgen := generation_spec ops p cfg pop r m hobj hlen huni
    by_cases hg : 1 ≤ g
    · rw [genLoop]
      exact ih _ _ hgen.1 hgen.2.1 hg
    · have hg0 : g = 0 := by omega
      subst hg0
      rw [genLoop]
      exact ⟨hgen.1, hgen.2.2⟩

theorem evalAll_spec {S : Type} (p : Prob S) :
    ∀ (l : List S), (∀ x ∈ l, (p.constraints.all fun c => c x) = true) →
      ∃ pop, evalAll p l = some pop ∧ pop.length = l.length ∧
        ∀ y ∈ pop, y.value.length = p.objectives.length := by
  intro l
  induction l with
  | nil => intro _; exact ⟨[], rfl, rfl, by simp⟩
  | cons x rest ih =>
    intro hfeas
    have hx : Evaluate p x = some (p.objectives.map (fun f => f x)) := by
      unfold Evaluate
      rw [if_pos (hfeas x (List.mem_cons_self _ _))]
    obtain ⟨pop, hpop, hlen, huni⟩ := ih (fun y hy => hfeas y (List.mem_cons_of_mem _ hy))
    refine ⟨newSol x (p.objectives.map (fun f => f x)) :: pop, ?_, by simp [hlen], ?_⟩
    · unfold evalAll
      rw [hx, hpop]
    · intro y hy
      rcases List.mem_cons.mp hy with h | h
      · rw [h]
        simp [newSol]
      · exact huni y h

end NSGA

/-- Claim C9 (amended): for every run whose seeder returns exactly `popSize`
feasible individuals and that executes at least one generation, the final
population has exactly `popSize` members and no rank-0 member dominates
another rank-0 member. (After zero generations the ranks are the initial
zero values of `NewNSGAIISolution` and the initial population may contain
dominated pairs, so at least one generation is required.) -/
theorem nsga2_run_size_and_rank0 {S : Type} [Inhabited S]
    (ops : NSGA.SolutionOps S) (p : NSGA.Prob S) (cfg : NSGA.Cfg) (r : NSGA.RNG)
    (hinit : (p.initPop cfg.popSize).length = cfg.popSize)
    (hfeas : ∀ x ∈ p.initPop cfg.popSize, (p.constraints.all fun c => c x) = true)
    (hgen : 1 ≤ cfg.numGenerations) :
    ∃ out, NSGA.Run ops p cfg r = some out ∧ out.length = cfg.popSize ∧
      ∀ a ∈ out, ∀ b ∈ out, a.rank = 0 → b.rank = 0 → NSGA.Dominates a b = false := by
  obtain ⟨pop, hpop, hlen, huni⟩ := NSGA.evalAll_spec p (p.initPop cfg.popSize) hfeas
  have hg := NSGA.genLoop_spec ops p cfg p.objectives.length rfl cfg.numGenerations pop r
    (hlen.trans hinit) huni hgen
  refine ⟨(NSGA.genLoop ops p cfg cfg.numGenerations pop r).1, ?_, hg.1, hg.2⟩
  unfold NSGA.Run
  rw [if_neg (by simp [hinit])]
  rw [hpop]

def cexOps : NSGA.SolutionOps ℚ :=
  { clone := id
    crossover := fun a b _ r => (a, b, r)
    mutate := fun a _ r => (a, r) }

def cexProb : NSGA.Prob ℚ :=
  { constraints := []
    objectives := [fun x => x]
    initPop := fun _ => [1, 2] }

def cexRNG : NSGA.RNG := { stream := fun _ => 0, pos := 0 }

/-- Claim C9 counterexample: a run with `popSize = 2` and zero generations
whose seeder returns 2 feasible individuals. `Run` returns the evaluated
initial population untouched; both members carry the Go zero-value rank 0,
yet the first dominates the second, so the rank-0 set of the final
population is not mutually non-dominated. -/
theorem nsga2_zero_generations_dominated_rank0 :
    (cexProb.initPop 2).length = 2 ∧
    (∀ x ∈ cexProb.initPop 2, (cexProb.constraints.all fun c => c x) = true) ∧
    NSGA.Run cexOps cexProb ⟨2, 0, 8 / 10, 1 / 10⟩ cexRNG =
      some [NSGA.newSol (1 : ℚ) [1], NSGA.newSol (2 : ℚ) [2]] ∧
    (NSGA.newSol (1 : ℚ) [1]).rank = 0 ∧ (NSGA.newSol (2 : ℚ) [2]).rank = 0 ∧
    NSGA.Dominates (NSGA.newSol (1 : ℚ) [1]) (NSGA.newSol (2 : ℚ) [2]) = true := by
  refine ⟨rfl, fun x _ => rfl, ?_, rfl, rfl, ?_⟩
  · rfl
  · show NSGA.domVals [1] [2] false = true
    rw [NSGA.domVals]
    norm_num
    rw [NSGA.domVals]

theorem nsga2_run_size_and_rank0_witness :
    ∃ out, NSGA.Run cexOps cexProb ⟨2, 1, 8 / 10, 1 / 10⟩ cexRNG = some out ∧
      out.length = 2 ∧
      ∀ a ∈ out, ∀ b ∈ out, a.rank = 0 → b.rank = 0 → NSGA.Dominates a b = false :=
  nsga2_run_size_and_rank0 cexOps cexProb ⟨2, 1, 8 / 10, 1 / 10⟩ cexRNG rfl
    (fun x _ => rfl) (by decide)
